import Mathlib

/-!
Verification development for the hamiket tree editor.

The repository implements a browser-based editor for a labeled ordered tree:
right-clicking a node offers add-child, cut, copy, paste and delete, and the
tree is re-laid-out (column/row coordinates) after each structural change.

This file shallowly embeds the core logic of `src/app/page.tsx` (the canonical
component) and, where the second variant `src/unnamed/part_000` diverges in a
way a claim depends on (`recalculateLayout`), that variant as well.
TypeScript node objects become a nested inductive `NodeItem`; the JavaScript
`uuidv4()` id generator is modelled as a counter threaded through the
operations (each call returns the current counter value, assumed fresh, and
increments it), with the distinguished id `'root'` modelled as the counter
value `0`.  React `useState` state (`nodes`, `clipboard`) becomes explicit
arguments and results.  Recursive tree walks written in the source with
`Array.prototype.map`/`filter` over `node.children` are rendered as mutual
definitions (one on nodes, one on child lists) computing the same function.
-/

namespace Hamiket

/-- The `NodeItem` interface of `page.tsx`: every tree node carries an id, a
label, an ordered children list, an optional logical-parent id, a transient
`isCut` display flag (absent/undefined in TS is modelled as `false`) and the
derived layout coordinates `col`/`row`. Ids are modelled as naturals: the
special id `'root'` is `0`, `uuidv4()` results are the successive values of a
fresh-id counter. -/
structure NodeItem where
  id : Nat
  label : String
  children : List NodeItem
  parentId : Option Nat := none
  isCut : Bool := false
  col : Nat
  row : Nat
deriving Repr

/-- The id of the distinguished root node (`'root'` in the source). -/
def rootId : Nat := 0

/-- Clipboard mode: `'cut' | 'copy'`. -/
inductive Mode where
  | cut
  | copy
deriving Repr, DecidableEq

/-- The clipboard state `{ mode: 'cut' | 'copy'; node: NodeItem }`; the React
state holds `Option Clipboard` (`null` = empty). -/
structure Clipboard where
  mode : Mode
  node : NodeItem
deriving Repr

mutual
/-- Decidable equality of nodes (not derivable automatically for this nested
inductive). -/
def nodeDecEq : (a b : NodeItem) → Decidable (a = b)
  | ⟨i, l, cs, p, k, c, r⟩, ⟨i2, l2, cs2, p2, k2, c2, r2⟩ =>
    have : Decidable (cs = cs2) := listDecEq cs cs2
    decidable_of_iff (i = i2 ∧ l = l2 ∧ cs = cs2 ∧ p = p2 ∧ k = k2 ∧ c = c2 ∧ r = r2)
      (by rw [NodeItem.mk.injEq])

/-- Decidable equality of node lists. -/
def listDecEq : (a b : List NodeItem) → Decidable (a = b)
  | [], [] => isTrue rfl
  | [], _ :: _ => isFalse (by simp)
  | _ :: _, [] => isFalse (by simp)
  | x :: xs, y :: ys =>
    have h1 : Decidable (x = y) := nodeDecEq x y
    have h2 : Decidable (xs = ys) := listDecEq xs ys
    decidable_of_iff (x = y ∧ xs = ys) (by rw [List.cons.injEq])
end

instance : DecidableEq NodeItem := nodeDecEq

instance : DecidableEq Clipboard := fun a b =>
  decidable_of_iff (a.mode = b.mode ∧ a.node = b.node)
    (by cases a; cases b; rw [Clipboard.mk.injEq])

/-- JavaScript `String.prototype.trim()` (used as `newLabel.trim()` in the
source), modelled over the character list with `Char.isWhitespace` as the
whitespace class: drop whitespace from both ends. -/
def trimLabel (s : String) : String :=
  ⟨((s.data.dropWhile Char.isWhitespace).reverse.dropWhile Char.isWhitespace).reverse⟩

/-- The root label constant `RootLabel` of the source. -/
def RootLabel : String := "حساب‌های اصلی"

/-- The initial `nodes` state: a single root node. -/
def initialNodes : List NodeItem :=
  [{ id := rootId, label := RootLabel, children := [], col := 0, row := 0 }]

mutual
/-- `markCutNodes` of `page.tsx`: deep copy setting `isCut := true` on the node
and all descendants (the children are `node.children.map(markCutNodes)`). -/
def markCutNodes : NodeItem → NodeItem
  | ⟨i, l, cs, pid, _, c, r⟩ => ⟨i, l, markCutList cs, pid, true, c, r⟩

/-- `node.children.map(markCutNodes)`. -/
def markCutList : List NodeItem → List NodeItem
  | [] => []
  | x :: xs => markCutNodes x :: markCutList xs
end

mutual
/-- `clearCutFlags` of `page.tsx`: deep copy setting `isCut := false` on the
node and all descendants. -/
def clearCutFlags : NodeItem → NodeItem
  | ⟨i, l, cs, pid, _, c, r⟩ => ⟨i, l, clearCutList cs, pid, false, c, r⟩

/-- `node.children.map(clearCutFlags)`. -/
def clearCutList : List NodeItem → List NodeItem
  | [] => []
  | x :: xs => clearCutFlags x :: clearCutList xs
end

mutual
/-- `flattenTree` of `page.tsx`: pre-order traversal of the forest (each node
pushed before its children are walked). -/
def flattenTree : List NodeItem → List NodeItem
  | [] => []
  | n :: rest => flattenNode n ++ flattenTree rest

/-- The `walk` of a single node in `flattenTree`: the node followed by the
flattening of its children. -/
def flattenNode : NodeItem → List NodeItem
  | ⟨i, l, cs, pid, k, c, r⟩ => ⟨i, l, cs, pid, k, c, r⟩ :: flattenTree cs
end

mutual
/-- `updateTree` of `page.tsx`: map over the forest; the node whose id matches
gets the updater applied (the TS updater mutates a shallow copy; here it is a
pure function), otherwise recurse into the children when they are nonempty. -/
def updateTree : List NodeItem → Nat → (NodeItem → NodeItem) → List NodeItem
  | [], _, _ => []
  | n :: rest, i, f =>
    (if n.id = i then f n
     else if n.children.length ≠ 0 then updateTreeNode n i f
     else n) :: updateTree rest i f

/-- The recursive branch of `updateTree`:
`{ ...node, children: updateTree(node.children, id, updater) }`. -/
def updateTreeNode : NodeItem → Nat → (NodeItem → NodeItem) → NodeItem
  | ⟨ni, l, cs, pid, k, c, r⟩, i, f => ⟨ni, l, updateTree cs i f, pid, k, c, r⟩
end

mutual
/-- `replaceNodeInTree` of `page.tsx`: substitute the node with the target id
by `updatedNode`, preserving its position among siblings. -/
def replaceNodeInTree : List NodeItem → Nat → NodeItem → List NodeItem
  | [], _, _ => []
  | n :: rest, targetId, updatedNode =>
    (if n.id = targetId then updatedNode
     else if n.children.length > 0 then replaceNodeInNode n targetId updatedNode
     else n) :: replaceNodeInTree rest targetId updatedNode

/-- The recursive branch of `replaceNodeInTree`:
`{ ...node, children: replaceNodeInTree(node.children, targetId, updatedNode) }`. -/
def replaceNodeInNode : NodeItem → Nat → NodeItem → NodeItem
  | ⟨ni, l, cs, pid, k, c, r⟩, targetId, updatedNode =>
    ⟨ni, l, replaceNodeInTree cs targetId updatedNode, pid, k, c, r⟩
end

mutual
/-- `recalculateLayout` of `page.tsx`: depth-first layout.  Each node of the
list receives `(col, row)` for the current running row, its children are laid
out starting at that same row with `col + 1`, and the running row then
advances to `max (row + 1) nextRow`.  Returns the re-laid-out list and the
final value of the row counter. -/
def recalculateLayout : List NodeItem → Nat → Nat → List NodeItem × Nat
  | [], startRow, _ => ([], startRow)
  | n :: rest, startRow, col =>
    let p := recalcNode n startRow col
    let q := recalculateLayout rest (max (startRow + 1) p.2) col
    (p.1 :: q.1, q.2)

/-- One loop iteration of `recalculateLayout`: lay out the children at
`(row, col + 1)` and build `{ ...node, col, row, children: childrenWithLayout }`
together with the children's `nextRow`. -/
def recalcNode : NodeItem → Nat → Nat → NodeItem × Nat
  | ⟨i, l, cs, pid, k, _, _⟩, startRow, col =>
    let p := recalculateLayout cs startRow (col + 1)
    (⟨i, l, p.1, pid, k, col, startRow⟩, p.2)
end

mutual
/-- `recalculateLayout` of `src/unnamed/part_000`: identical to the `page.tsx`
version except that a node's children are laid out starting at `row + 1`
instead of `row`. -/
def recalculateLayoutP0 : List NodeItem → Nat → Nat → List NodeItem × Nat
  | [], startRow, _ => ([], startRow)
  | n :: rest, startRow, col =>
    let p := recalcNodeP0 n startRow col
    let q := recalculateLayoutP0 rest (max (startRow + 1) p.2) col
    (p.1 :: q.1, q.2)

/-- One loop iteration of the `part_000` layout: children start at `row + 1`. -/
def recalcNodeP0 : NodeItem → Nat → Nat → NodeItem × Nat
  | ⟨i, l, cs, pid, k, _, _⟩, startRow, col =>
    let p := recalculateLayoutP0 cs (startRow + 1) (col + 1)
    (⟨i, l, p.1, pid, k, col, startRow⟩, p.2)
end

mutual
/-- `deepClone` of `handlePaste` in `page.tsx`:
`{ ...node, id: uuidv4(), isCut: false, col: 0, row: 0,
children: node.children.map(deepClone) }`.  The counter models `uuidv4()`:
the node takes the current counter value as its fresh id and the children are
cloned with the following values; `parentId` is spread unchanged. -/
def deepClone : NodeItem → Nat → NodeItem × Nat
  | ⟨_, l, cs, pid, _, _, _⟩, ctr =>
    let p := deepCloneList cs (ctr + 1)
    (⟨ctr, l, p.1, pid, false, 0, 0⟩, p.2)

/-- `node.children.map(deepClone)`, threading the fresh-id counter. -/
def deepCloneList : List NodeItem → Nat → List NodeItem × Nat
  | [], ctr => ([], ctr)
  | x :: xs, ctr =>
    let p := deepClone x ctr
    let q := deepCloneList xs p.2
    (p.1 :: q.1, q.2)
end

mutual
/-- `removeFrom` of `page.tsx` (used by `handlePaste` in cut mode): filter out
every node whose id equals the clipboard node's id and recurse into the
surviving nodes' children (the source writes this as `filter` followed by
`map`; this is the same function in one pass). -/
def removeFrom : Nat → List NodeItem → List NodeItem
  | _, [] => []
  | cid, n :: rest =>
    if n.id = cid then removeFrom cid rest
    else removeFromNode cid n :: removeFrom cid rest

/-- The `map` step of `removeFrom`:
`{ ...n, children: removeFrom(n.children) }`. -/
def removeFromNode : Nat → NodeItem → NodeItem
  | cid, ⟨i, l, cs, pid, k, c, r⟩ => ⟨i, l, removeFrom cid cs, pid, k, c, r⟩
end

mutual
/-- `deleteFrom` of `handleDelete` in `page.tsx`: filter out every node whose
id equals the context node's id and recurse into the surviving nodes'
children (same `filter`-then-`map` shape as `removeFrom`). -/
def deleteFrom : Nat → List NodeItem → List NodeItem
  | _, [] => []
  | cid, n :: rest =>
    if n.id = cid then deleteFrom cid rest
    else deleteFromNode cid n :: deleteFrom cid rest

/-- The `map` step of `deleteFrom`:
`{ ...n, children: deleteFrom(n.children) }`. -/
def deleteFromNode : Nat → NodeItem → NodeItem
  | cid, ⟨i, l, cs, pid, k, c, r⟩ => ⟨i, l, deleteFrom cid cs, pid, k, c, r⟩
end

/-- The updater closure passed to `updateTree` by `handleModalSubmit` and
`handlePaste`: `(n) => { n.children = [...n.children, x]; }`. -/
def appendChildFn (x : NodeItem) : NodeItem → NodeItem :=
  fun n => { n with children := n.children ++ [x] }

/-- `handleModalSubmit` of `page.tsx` (the add-child confirmation): a no-op if
the entered label trims to the empty string; otherwise a new leaf with a fresh
id and `parentId := contextNode.id` is appended to the context node's
children and the forest is re-laid-out.  Returns the new forest and the new
fresh-id counter. -/
def handleModalSubmit (nodes : List NodeItem) (contextNode : NodeItem)
    (newLabel : String) (ctr : Nat) : List NodeItem × Nat :=
  if trimLabel newLabel = "" then (nodes, ctr)
  else
    let newChild : NodeItem :=
      { id := ctr, label := newLabel, children := [],
        parentId := some contextNode.id, col := 0, row := 0 }
    let updatedTree := updateTree nodes contextNode.id (appendChildFn newChild)
    ((recalculateLayout updatedTree 0 0).1, ctr + 1)

/-- `handleCut` of `page.tsx`: a no-op on the root; otherwise the context
node's subtree is marked `isCut` in place (`replaceNodeInTree` with
`markCutNodes`) and the marked subtree is stored in the clipboard with mode
`'cut'`.  No layout recomputation happens. -/
def handleCut (nodes : List NodeItem) (clipboard : Option Clipboard)
    (contextNode : NodeItem) : List NodeItem × Option Clipboard :=
  if contextNode.id = rootId then (nodes, clipboard)
  else
    let cutNodeMarked := markCutNodes contextNode
    (replaceNodeInTree nodes cutNodeMarked.id cutNodeMarked,
     some ⟨Mode.cut, cutNodeMarked⟩)

/-- `handleCopy` of `page.tsx`: a no-op on the root; otherwise the context
node is stored in the clipboard with mode `'copy'` and the forest is
untouched. -/
def handleCopy (nodes : List NodeItem) (clipboard : Option Clipboard)
    (contextNode : NodeItem) : List NodeItem × Option Clipboard :=
  if contextNode.id = rootId then (nodes, clipboard)
  else (nodes, some ⟨Mode.copy, contextNode⟩)

/-- `handleDelete` of `page.tsx`: remove every node whose id equals the
context node's id (together with its subtree) and re-lay-out.  The handler
itself has no guard; the root/leaf guard lives in the menu item's `disabled`
condition (see `menuDeleteEnabled`). -/
def handleDelete (nodes : List NodeItem) (contextNode : NodeItem) :
    List NodeItem :=
  (recalculateLayout (deleteFrom contextNode.id nodes) 0 0).1

/-- The `disabled` condition of the delete menu item in `page.tsx`, negated:
the item is enabled exactly when a context node exists (always the case here),
it is not the root and it currently has no children. -/
def menuDeleteEnabled (contextNode : NodeItem) : Bool :=
  ¬(contextNode.id = rootId ∨ contextNode.children.length > 0)

/-- Delete as invocable through the UI of `page.tsx`: the menu item only fires
`handleDelete` when it is not disabled.  The clipboard is never touched by
deletion. -/
def deleteOp (nodes : List NodeItem) (clipboard : Option Clipboard)
    (contextNode : NodeItem) : List NodeItem × Option Clipboard :=
  if menuDeleteEnabled contextNode then (handleDelete nodes contextNode, clipboard)
  else (nodes, clipboard)

/-- `handlePaste` of `page.tsx`: a no-op if the clipboard is empty or the
target's id equals the clipboard node's id.  Otherwise, in cut mode the
clipboard node's id is removed from the forest first; the node to paste is a
deep clone with fresh ids (copy mode) or the clipboard node with its `isCut`
flags cleared (cut mode); it is appended to the target's children, the forest
is re-laid-out, and the clipboard is cleared.  Returns the new forest, the new
clipboard and the new fresh-id counter. -/
def handlePaste (nodes : List NodeItem) (clipboard : Option Clipboard)
    (contextNode : NodeItem) (ctr : Nat) :
    List NodeItem × Option Clipboard × Nat :=
  match clipboard with
  | none => (nodes, none, ctr)
  | some cb =>
    if contextNode.id = cb.node.id then (nodes, some cb, ctr)
    else
      let updatedTree := if cb.mode = Mode.cut then removeFrom cb.node.id nodes else nodes
      let cloned := deepClone cb.node ctr
      let nodeToPaste := if cb.mode = Mode.copy then cloned.1 else clearCutFlags cb.node
      let ctr1 := if cb.mode = Mode.copy then cloned.2 else ctr
      let pasted := updateTree updatedTree contextNode.id (appendChildFn nodeToPaste)
      ((recalculateLayout pasted 0 0).1, none, ctr1)

/-! ### Derived notions used to state the claims -/

/-- The ids of all nodes of a forest, in pre-order. -/
def ids (ts : List NodeItem) : List Nat :=
  (flattenTree ts).map NodeItem.id

/-- The ids of all nodes of a single subtree, in pre-order. -/
def idsN (n : NodeItem) : List Nat :=
  (flattenNode n).map NodeItem.id

/-- The ids of a node's immediate children, in order. -/
def childIds (n : NodeItem) : List Nat :=
  n.children.map NodeItem.id

/-- Every id of the forest is below the fresh-id counter: the invariant under
which modelled `uuidv4()` values are really fresh. -/
def allIdsLt (ts : List NodeItem) (c : Nat) : Prop :=
  ∀ m ∈ flattenTree ts, m.id < c

instance (ts : List NodeItem) (c : Nat) : Decidable (allIdsLt ts c) :=
  inferInstanceAs (Decidable (∀ m ∈ flattenTree ts, m.id < c))

/-- The `parentId` consistency invariant claimed by the spec: every child's
`parentId` equals the id of the node whose children list contains it. -/
def parentIdConsistent (ts : List NodeItem) : Bool :=
  (flattenTree ts).all (fun n => n.children.all (fun c => c.parentId = some n.id))

mutual
/-- Does some node with id `j` occur in the forest outside of (i.e. not at and
not strictly inside) every node with id `i`?  This characterises the ids that
survive `removeFrom i`. -/
def occursOutside : Nat → Nat → List NodeItem → Bool
  | _, _, [] => false
  | i, j, n :: rest => occursOutsideNode i j n || occursOutside i j rest

/-- Node-level step of `occursOutside`: a subtree rooted at an `i`-node
contributes nothing; otherwise the root may be a `j`-node or the occurrence
may lie in the children. -/
def occursOutsideNode : Nat → Nat → NodeItem → Bool
  | i, j, ⟨ni, _, cs, _, _, _, _⟩ =>
    if ni = i then false else (ni == j) || occursOutside i j cs
end

mutual
/-- The number of maximal `j`-nodes of a forest: nodes with id `j` that are
not strictly inside another node with id `j`.  These are exactly the nodes
`updateTree` applies its updater to. -/
def maxCount : Nat → List NodeItem → Nat
  | _, [] => 0
  | j, n :: rest => maxCountNode j n + maxCount j rest

/-- Node-level step of `maxCount`. -/
def maxCountNode : Nat → NodeItem → Nat
  | j, ⟨ni, _, cs, _, _, _, _⟩ => if ni = j then 1 else maxCount j cs
end

mutual
/-- Erase the layout coordinates of a subtree (set all `col`/`row` to 0):
two forests with equal `stripLayout` images agree on everything the layout
pass does not touch. -/
def stripLayout : NodeItem → NodeItem
  | ⟨i, l, cs, pid, k, _, _⟩ => ⟨i, l, stripLayoutList cs, pid, k, 0, 0⟩

/-- `stripLayout` mapped over a list. -/
def stripLayoutList : List NodeItem → List NodeItem
  | [] => []
  | x :: xs => stripLayout x :: stripLayoutList xs
end

mutual
/-- Erase the `isCut` flags of a subtree: two forests with equal `eraseCut`
images differ at most in `isCut` flags. -/
def eraseCut : NodeItem → NodeItem
  | ⟨i, l, cs, pid, _, c, r⟩ => ⟨i, l, eraseCutList cs, pid, false, c, r⟩

/-- `eraseCut` mapped over a list. -/
def eraseCutList : List NodeItem → List NodeItem
  | [] => []
  | x :: xs => eraseCut x :: eraseCutList xs
end

/-- Bare labeled ordered trees: the shape-and-labels skeleton of a subtree,
used to state that copy-paste produces an isomorphic copy. -/
inductive LTree where
  | node (label : String) (children : List LTree)
deriving Repr

mutual
/-- The shape-and-labels skeleton of a subtree (ids, flags and layout
erased). -/
def skel : NodeItem → LTree
  | ⟨_, l, cs, _, _, _, _⟩ => LTree.node l (skelList cs)

/-- `skel` mapped over a list. -/
def skelList : List NodeItem → List LTree
  | [] => []
  | x :: xs => skel x :: skelList xs
end

/-- Subtree `t` lies entirely in strictly smaller rows than subtree `u`:
the ordering in which sibling subtrees occupy disjoint row ranges. -/
def RowLT (t u : NodeItem) : Prop :=
  ∀ a ∈ flattenNode t, ∀ b ∈ flattenNode u, a.row < b.row

/-! ### A concrete reachable session, used to evaluate the handlers -/

/-- The root node as initially rendered (the context node of the first
right-click). -/
def rootNode0 : NodeItem := ⟨rootId, RootLabel, [], none, false, 0, 0⟩

/-- Add child "A" under the root (fresh id 1). -/
def session1 : List NodeItem × Nat := handleModalSubmit initialNodes rootNode0 "A" 1

/-- The root node as rendered after step 1. -/
def rootNode1 : NodeItem :=
  ⟨rootId, RootLabel, [⟨1, "A", [], some rootId, false, 1, 0⟩], none, false, 0, 0⟩

/-- Add child "B" under the root (fresh id 2). -/
def session2 : List NodeItem × Nat := handleModalSubmit session1.1 rootNode1 "B" session1.2

/-- The node "A" as rendered after step 2. -/
def nodeA2 : NodeItem := ⟨1, "A", [], some rootId, false, 1, 0⟩

/-- Cut "A". -/
def session3 : List NodeItem × Option Clipboard := handleCut session2.1 none nodeA2

/-- The node "B" as rendered after the cut. -/
def nodeB3 : NodeItem := ⟨2, "B", [], some rootId, false, 1, 1⟩

/-- Paste into "B". -/
def session4 : List NodeItem × Option Clipboard × Nat :=
  handlePaste session3.1 session3.2 nodeB3 session2.2

/-! ### A second concrete scenario: a deeper chain root -> A -> B -/

/-- A three-node chain: the root has child "A" (id 1), which has child "B"
(id 2), as laid out. -/
def c6F : List NodeItem :=
  [⟨0, "r", [⟨1, "A", [⟨2, "B", [], some 1, false, 2, 0⟩], some 0, false, 1, 0⟩],
    none, false, 0, 0⟩]

/-- The node "A" of the chain, with its subtree. -/
def c6A : NodeItem := ⟨1, "A", [⟨2, "B", [], some 1, false, 2, 0⟩], some 0, false, 1, 0⟩

/-- The node "B" of the chain (a strict descendant of "A"). -/
def c6B : NodeItem := ⟨2, "B", [], some 1, false, 2, 0⟩

/-- Copy "A", then paste into its own descendant "B". -/
def c6paste : List NodeItem × Option Clipboard × Nat :=
  handlePaste c6F (some ⟨Mode.copy, c6A⟩) c6B 3

/-- Cut "A" in the chain: the forest with the marked subtree. -/
def c10F : List NodeItem := (handleCut c6F none c6A).1

/-- The clipboard after cutting "A". -/
def c10clip : Option Clipboard := (handleCut c6F none c6A).2

/-- The node "B" as rendered after the cut (marked). -/
def c10B : NodeItem := ⟨2, "B", [], some 1, true, 2, 0⟩

/-! ### Structural induction over forests -/

mutual
/-- Induction over forests: to prove `Q` of every forest it suffices to prove
it of `[]` and of `n :: rest` given it for `n.children` and `rest`. -/
def forestInd {Q : List NodeItem → Prop} (base : Q [])
    (step : ∀ n rest, Q n.children → Q rest → Q (n :: rest)) :
    ∀ ts : List NodeItem, Q ts
  | [] => base
  | n :: rest => step n rest (forestIndNode base step n) (forestInd base step rest)

/-- Node-level companion of `forestInd`. -/
def forestIndNode {Q : List NodeItem → Prop} (base : Q [])
    (step : ∀ n rest, Q n.children → Q rest → Q (n :: rest)) :
    ∀ n : NodeItem, Q n.children
  | ⟨_, _, cs, _, _, _, _⟩ => forestInd base step cs
end

/-! ### Unfolding lemmas for the node-level recursions -/

@[simp] theorem markCutNodes_def (n : NodeItem) :
    markCutNodes n = { n with isCut := true, children := markCutList n.children } := by
  cases n; rfl

@[simp] theorem markCutList_nil : markCutList [] = [] := rfl

@[simp] theorem markCutList_cons (x : NodeItem) (xs : List NodeItem) :
    markCutList (x :: xs) = markCutNodes x :: markCutList xs := rfl

@[simp] theorem clearCutFlags_def (n : NodeItem) :
    clearCutFlags n = { n with isCut := false, children := clearCutList n.children } := by
  cases n; rfl

@[simp] theorem clearCutList_nil : clearCutList [] = [] := rfl

@[simp] theorem clearCutList_cons (x : NodeItem) (xs : List NodeItem) :
    clearCutList (x :: xs) = clearCutFlags x :: clearCutList xs := rfl

@[simp] theorem flattenTree_nil : flattenTree [] = [] := rfl

@[simp] theorem flattenTree_cons (n : NodeItem) (rest : List NodeItem) :
    flattenTree (n :: rest) = flattenNode n ++ flattenTree rest := rfl

@[simp] theorem flattenNode_def (n : NodeItem) :
    flattenNode n = n :: flattenTree n.children := by
  cases n; rfl

@[simp] theorem updateTree_nil (i : Nat) (f : NodeItem → NodeItem) :
    updateTree [] i f = [] := rfl

theorem updateTree_cons (n : NodeItem) (rest : List NodeItem) (i : Nat)
    (f : NodeItem → NodeItem) :
    updateTree (n :: rest) i f =
      (if n.id = i then f n
       else if n.children.length ≠ 0 then updateTreeNode n i f
       else n) :: updateTree rest i f := rfl

@[simp] theorem updateTreeNode_def (n : NodeItem) (i : Nat) (f : NodeItem → NodeItem) :
    updateTreeNode n i f = { n with children := updateTree n.children i f } := by
  cases n; rfl

@[simp] theorem replaceNodeInTree_nil (targetId : Nat) (u : NodeItem) :
    replaceNodeInTree [] targetId u = [] := rfl

theorem replaceNodeInTree_cons (n : NodeItem) (rest : List NodeItem)
    (targetId : Nat) (u : NodeItem) :
    replaceNodeInTree (n :: rest) targetId u =
      (if n.id = targetId then u
       else if n.children.length > 0 then replaceNodeInNode n targetId u
       else n) :: replaceNodeInTree rest targetId u := rfl

@[simp] theorem replaceNodeInNode_def (n : NodeItem) (targetId : Nat) (u : NodeItem) :
    replaceNodeInNode n targetId u =
      { n with children := replaceNodeInTree n.children targetId u } := by
  cases n; rfl

@[simp] theorem recalculateLayout_nil (s c : Nat) :
    recalculateLayout [] s c = ([], s) := rfl

theorem recalculateLayout_cons (n : NodeItem) (rest : List NodeItem) (s c : Nat) :
    recalculateLayout (n :: rest) s c =
      ((recalcNode n s c).1 ::
        (recalculateLayout rest (max (s + 1) (recalcNode n s c).2) c).1,
       (recalculateLayout rest (max (s + 1) (recalcNode n s c).2) c).2) := rfl

@[simp] theorem recalcNode_def (n : NodeItem) (s c : Nat) :
    recalcNode n s c =
      ({ n with col := c, row := s, children := (recalculateLayout n.children s (c + 1)).1 },
       (recalculateLayout n.children s (c + 1)).2) := by
  cases n; rfl

@[simp] theorem recalculateLayoutP0_nil (s c : Nat) :
    recalculateLayoutP0 [] s c = ([], s) := rfl

theorem recalculateLayoutP0_cons (n : NodeItem) (rest : List NodeItem) (s c : Nat) :
    recalculateLayoutP0 (n :: rest) s c =
      ((recalcNodeP0 n s c).1 ::
        (recalculateLayoutP0 rest (max (s + 1) (recalcNodeP0 n s c).2) c).1,
       (recalculateLayoutP0 rest (max (s + 1) (recalcNodeP0 n s c).2) c).2) := rfl

@[simp] theorem recalcNodeP0_def (n : NodeItem) (s c : Nat) :
    recalcNodeP0 n s c =
      ({ n with col := c, row := s, children := (recalculateLayoutP0 n.children (s + 1) (c + 1)).1 },
       (recalculateLayoutP0 n.children (s + 1) (c + 1)).2) := by
  cases n; rfl

@[simp] theorem deepClone_def (n : NodeItem) (ctr : Nat) :
    deepClone n ctr =
      (⟨ctr, n.label, (deepCloneList n.children (ctr + 1)).1, n.parentId, false, 0, 0⟩,
       (deepCloneList n.children (ctr + 1)).2) := by
  cases n; rfl

@[simp] theorem deepCloneList_nil (ctr : Nat) : deepCloneList [] ctr = ([], ctr) := rfl

theorem deepCloneList_cons (x : NodeItem) (xs : List NodeItem) (ctr : Nat) :
    deepCloneList (x :: xs) ctr =
      ((deepClone x ctr).1 :: (deepCloneList xs (deepClone x ctr).2).1,
       (deepCloneList xs (deepClone x ctr).2).2) := rfl

@[simp] theorem removeFrom_nil (cid : Nat) : removeFrom cid [] = [] := rfl

theorem removeFrom_cons (cid : Nat) (n : NodeItem) (rest : List NodeItem) :
    removeFrom cid (n :: rest) =
      if n.id = cid then removeFrom cid rest
      else removeFromNode cid n :: removeFrom cid rest := rfl

@[simp] theorem removeFromNode_def (cid : Nat) (n : NodeItem) :
    removeFromNode cid n = { n with children := removeFrom cid n.children } := by
  cases n; rfl

@[simp] theorem deleteFrom_nil (cid : Nat) : deleteFrom cid [] = [] := rfl

theorem deleteFrom_cons (cid : Nat) (n : NodeItem) (rest : List NodeItem) :
    deleteFrom cid (n :: rest) =
      if n.id = cid then deleteFrom cid rest
      else deleteFromNode cid n :: deleteFrom cid rest := rfl

@[simp] theorem deleteFromNode_def (cid : Nat) (n : NodeItem) :
    deleteFromNode cid n = { n with children := deleteFrom cid n.children } := by
  cases n; rfl

@[simp] theorem occursOutside_nil (i j : Nat) : occursOutside i j [] = false := rfl

@[simp] theorem occursOutside_cons (i j : Nat) (n : NodeItem) (rest : List NodeItem) :
    occursOutside i j (n :: rest) =
      (occursOutsideNode i j n || occursOutside i j rest) := rfl

@[simp] theorem occursOutsideNode_def (i j : Nat) (n : NodeItem) :
    occursOutsideNode i j n =
      if n.id = i then false else ((n.id == j) || occursOutside i j n.children) := by
  cases n; rfl

@[simp] theorem maxCount_nil (j : Nat) : maxCount j [] = 0 := rfl

@[simp] theorem maxCount_cons (j : Nat) (n : NodeItem) (rest : List NodeItem) :
    maxCount j (n :: rest) = maxCountNode j n + maxCount j rest := rfl

@[simp] theorem maxCountNode_def (j : Nat) (n : NodeItem) :
    maxCountNode j n = if n.id = j then 1 else maxCount j n.children := by
  cases n; rfl

@[simp] theorem stripLayout_def (n : NodeItem) :
    stripLayout n = { n with col := 0, row := 0, children := stripLayoutList n.children } := by
  cases n; rfl

@[simp] theorem stripLayoutList_nil : stripLayoutList [] = [] := rfl

@[simp] theorem stripLayoutList_cons (x : NodeItem) (xs : List NodeItem) :
    stripLayoutList (x :: xs) = stripLayout x :: stripLayoutList xs := rfl

@[simp] theorem eraseCut_def (n : NodeItem) :
    eraseCut n = { n with isCut := false, children := eraseCutList n.children } := by
  cases n; rfl

@[simp] theorem eraseCutList_nil : eraseCutList [] = [] := rfl

@[simp] theorem eraseCutList_cons (x : NodeItem) (xs : List NodeItem) :
    eraseCutList (x :: xs) = eraseCut x :: eraseCutList xs := rfl

@[simp] theorem skel_def (n : NodeItem) :
    skel n = LTree.node n.label (skelList n.children) := by
  cases n; rfl

@[simp] theorem skelList_nil : skelList [] = [] := rfl

@[simp] theorem skelList_cons (x : NodeItem) (xs : List NodeItem) :
    skelList (x :: xs) = skel x :: skelList xs := rfl

/-! ### Basic facts about the list-level companions and flattening -/

theorem markCutList_eq_map (xs : List NodeItem) :
    markCutList xs = xs.map markCutNodes := by
  induction xs with
  | nil => rfl
  | cons x xs ih => simp [ih]

theorem clearCutList_eq_map (xs : List NodeItem) :
    clearCutList xs = xs.map clearCutFlags := by
  induction xs with
  | nil => rfl
  | cons x xs ih => simp [ih]

theorem stripLayoutList_eq_map (xs : List NodeItem) :
    stripLayoutList xs = xs.map stripLayout := by
  induction xs with
  | nil => rfl
  | cons x xs ih => simp [ih]

theorem eraseCutList_eq_map (xs : List NodeItem) :
    eraseCutList xs = xs.map eraseCut := by
  induction xs with
  | nil => rfl
  | cons x xs ih => simp [ih]

theorem skelList_eq_map (xs : List NodeItem) :
    skelList xs = xs.map skel := by
  induction xs with
  | nil => rfl
  | cons x xs ih => simp [ih]

theorem flattenTree_append (as bs : List NodeItem) :
    flattenTree (as ++ bs) = flattenTree as ++ flattenTree bs := by
  induction as with
  | nil => rfl
  | cons a as ih => simp [ih]

/-- Naturality of flattening: mapping a children-natural function commutes
with pre-order flattening. -/
theorem flattenTree_map (f : NodeItem → NodeItem)
    (hf : ∀ n, (f n).children = n.children.map f) :
    ∀ ts : List NodeItem, flattenTree (ts.map f) = (flattenTree ts).map f := by
  refine forestInd ?_ ?_
  · rfl
  · intro n rest ihc iht
    simp only [List.map_cons, flattenTree_cons, flattenNode_def, List.map_append, hf,
      List.cons_append, ihc, iht]

/-- Flattening is closed under descendants: a node of a flattened subtree of a
member is itself a member of the flattening. -/
theorem mem_flattenTree_trans :
    ∀ ts : List NodeItem, ∀ t ∈ flattenTree ts, ∀ m ∈ flattenTree t.children,
      m ∈ flattenTree ts := by
  refine forestInd ?_ ?_
  · intro t ht; simp at ht
  · intro n rest ihc iht t ht m hm
    simp only [flattenTree_cons, List.mem_append, flattenNode_def, List.mem_cons] at ht ⊢
    rcases ht with (rfl | ht) | ht
    · exact Or.inl (Or.inr hm)
    · exact Or.inl (Or.inr (ihc t ht m hm))
    · exact Or.inr (iht t ht m hm)

/-- The flattening of a member's whole subtree is contained in the
flattening of the forest. -/
theorem flattenNode_subset (ts : List NodeItem) (t : NodeItem)
    (ht : t ∈ flattenTree ts) : ∀ m ∈ flattenNode t, m ∈ flattenTree ts := by
  intro m hm
  rw [flattenNode_def] at hm
  rcases List.mem_cons.1 hm with rfl | hm
  · exact ht
  · exact mem_flattenTree_trans ts t ht m hm

@[simp] theorem flattenTree_eq_nil (ts : List NodeItem) :
    flattenTree ts = [] ↔ ts = [] := by
  cases ts <;> simp

/-! ### The erasures are children-natural and preserve the other fields -/

theorem flattenTree_map_strip (ts : List NodeItem) :
    flattenTree (ts.map stripLayout) = (flattenTree ts).map stripLayout :=
  flattenTree_map _ (fun n => by simp [stripLayoutList_eq_map]) ts

theorem flattenTree_map_eraseCut (ts : List NodeItem) :
    flattenTree (ts.map eraseCut) = (flattenTree ts).map eraseCut :=
  flattenTree_map _ (fun n => by simp [eraseCutList_eq_map]) ts

/-- Two forests with equal `stripLayout` images have pointwise
`stripLayout`-equal flattenings. -/
theorem flatten_strip_congr {ts us : List NodeItem}
    (h : ts.map stripLayout = us.map stripLayout) :
    (flattenTree ts).map stripLayout = (flattenTree us).map stripLayout := by
  rw [← flattenTree_map_strip, ← flattenTree_map_strip, h]

/-- Two forests with equal `eraseCut` images have pointwise
`eraseCut`-equal flattenings. -/
theorem flatten_eraseCut_congr {ts us : List NodeItem}
    (h : ts.map eraseCut = us.map eraseCut) :
    (flattenTree ts).map eraseCut = (flattenTree us).map eraseCut := by
  rw [← flattenTree_map_eraseCut, ← flattenTree_map_eraseCut, h]

/-! ### `ids` bookkeeping -/

@[simp] theorem ids_nil : ids [] = [] := rfl

@[simp] theorem ids_cons (n : NodeItem) (rest : List NodeItem) :
    ids (n :: rest) = idsN n ++ ids rest := by
  simp [ids, idsN]

@[simp] theorem idsN_def (n : NodeItem) : idsN n = n.id :: ids n.children := by
  simp [ids, idsN]

theorem ids_append (as bs : List NodeItem) : ids (as ++ bs) = ids as ++ ids bs := by
  simp [ids, flattenTree_append]

theorem mem_ids (ts : List NodeItem) (j : Nat) :
    j ∈ ids ts ↔ ∃ m ∈ flattenTree ts, m.id = j := by
  simp [ids, Eq.comm]

theorem ids_map_eraseCut (ts : List NodeItem) : ids (ts.map eraseCut) = ids ts := by
  simp only [ids, flattenTree_map_eraseCut, List.map_map]
  exact List.map_congr_left (fun a _ => by simp)

theorem ids_map_strip (ts : List NodeItem) : ids (ts.map stripLayout) = ids ts := by
  simp only [ids, flattenTree_map_strip, List.map_map]
  exact List.map_congr_left (fun a _ => by simp)

/-- Forests with equal `eraseCut` images have equal ids. -/
theorem ids_congr_eraseCut {ts us : List NodeItem}
    (h : ts.map eraseCut = us.map eraseCut) : ids ts = ids us := by
  rw [← ids_map_eraseCut ts, ← ids_map_eraseCut us, h]

/-- Forests with equal `stripLayout` images have equal ids. -/
theorem ids_congr_strip {ts us : List NodeItem}
    (h : ts.map stripLayout = us.map stripLayout) : ids ts = ids us := by
  rw [← ids_map_strip ts, ← ids_map_strip us, h]

/-! ### Marking and clearing cut flags -/

theorem eraseCutList_markCutList :
    ∀ ts : List NodeItem, eraseCutList (markCutList ts) = eraseCutList ts := by
  refine forestInd ?_ ?_
  · rfl
  · intro n rest ihc iht
    cases n
    simp_all

theorem eraseCut_markCut (n : NodeItem) :
    eraseCut (markCutNodes n) = eraseCut n := by
  have h := eraseCutList_markCutList [n]
  simpa using h

theorem eraseCutList_clearCutList :
    ∀ ts : List NodeItem, eraseCutList (clearCutList ts) = eraseCutList ts := by
  refine forestInd ?_ ?_
  · rfl
  · intro n rest ihc iht
    cases n
    simp_all

theorem eraseCut_clearCut (n : NodeItem) :
    eraseCut (clearCutFlags n) = eraseCut n := by
  have h := eraseCutList_clearCutList [n]
  simpa using h

theorem idsN_eraseCut (n : NodeItem) : idsN (eraseCut n) = idsN n := by
  have h := ids_map_eraseCut [n]
  simpa [ids, idsN] using h

theorem idsN_markCut (n : NodeItem) : idsN (markCutNodes n) = idsN n := by
  have h1 := idsN_eraseCut (markCutNodes n)
  rw [eraseCut_markCut n, idsN_eraseCut n] at h1
  exact h1.symm

theorem idsN_clearCut (n : NodeItem) : idsN (clearCutFlags n) = idsN n := by
  have h1 := idsN_eraseCut (clearCutFlags n)
  rw [eraseCut_clearCut n, idsN_eraseCut n] at h1
  exact h1.symm

theorem isCut_markCutList :
    ∀ ts : List NodeItem, ∀ m ∈ flattenTree (markCutList ts), m.isCut = true := by
  refine forestInd ?_ ?_
  · intro m hm; simp at hm
  · intro n rest ihc iht m hm
    cases n
    simp only [markCutList_cons, markCutNodes_def, flattenTree_cons, flattenNode_def,
      List.mem_append, List.mem_cons] at hm
    rcases hm with (rfl | hm) | hm
    · rfl
    · exact ihc m hm
    · exact iht m hm

theorem isCut_markCutNodes (n : NodeItem) :
    ∀ m ∈ flattenNode (markCutNodes n), m.isCut = true := by
  intro m hm
  have h : m ∈ flattenTree (markCutList [n]) := by simpa using hm
  exact isCut_markCutList [n] m h

theorem isCut_clearCutList :
    ∀ ts : List NodeItem, ∀ m ∈ flattenTree (clearCutList ts), m.isCut = false := by
  refine forestInd ?_ ?_
  · intro m hm; simp at hm
  · intro n rest ihc iht m hm
    cases n
    simp only [clearCutList_cons, clearCutFlags_def, flattenTree_cons, flattenNode_def,
      List.mem_append, List.mem_cons] at hm
    rcases hm with (rfl | hm) | hm
    · rfl
    · exact ihc m hm
    · exact iht m hm

theorem isCut_clearCutFlags (n : NodeItem) :
    ∀ m ∈ flattenNode (clearCutFlags n), m.isCut = false := by
  intro m hm
  have h : m ∈ flattenTree (clearCutList [n]) := by simpa using hm
  exact isCut_clearCutList [n] m h

/-! ### Layout-pass lemmas -/

/-- Top-level forest members occur in the flattening. -/
theorem self_mem_flattenTree (ts : List NodeItem) : ∀ n ∈ ts, n ∈ flattenTree ts := by
  induction ts with
  | nil => intro n hn; simp at hn
  | cons m rest ih =>
    intro n hn
    rcases List.mem_cons.1 hn with rfl | hn
    · simp
    · simp only [flattenTree_cons, List.mem_append]
      exact Or.inr (ih n hn)

/-- Fully unfolded one-step equation for the `page.tsx` layout. -/
theorem recalculateLayout_cons2 (n : NodeItem) (rest : List NodeItem) (s c : Nat) :
    recalculateLayout (n :: rest) s c =
      ({ n with col := c, row := s, children := (recalculateLayout n.children s (c + 1)).1 } ::
        (recalculateLayout rest (max (s + 1) (recalculateLayout n.children s (c + 1)).2) c).1,
       (recalculateLayout rest (max (s + 1) (recalculateLayout n.children s (c + 1)).2) c).2) := by
  rw [recalculateLayout_cons]
  simp only [recalcNode_def]

/-- Fully unfolded one-step equation for the `part_000` layout. -/
theorem recalculateLayoutP0_cons2 (n : NodeItem) (rest : List NodeItem) (s c : Nat) :
    recalculateLayoutP0 (n :: rest) s c =
      ({ n with col := c, row := s, children := (recalculateLayoutP0 n.children (s + 1) (c + 1)).1 } ::
        (recalculateLayoutP0 rest (max (s + 1) (recalculateLayoutP0 n.children (s + 1) (c + 1)).2) c).1,
       (recalculateLayoutP0 rest (max (s + 1) (recalculateLayoutP0 n.children (s + 1) (c + 1)).2) c).2) := by
  rw [recalculateLayoutP0_cons]
  simp only [recalcNodeP0_def]

theorem recalc_ret_ge :
    ∀ ts : List NodeItem, ∀ s c, s ≤ (recalculateLayout ts s c).2 := by
  refine forestInd ?_ ?_
  · intro s c; simp
  · intro n rest _ iht s c
    rw [recalculateLayout_cons2]
    have h := iht (max (s + 1) (recalculateLayout n.children s (c + 1)).2) c
    omega

theorem recalcP0_ret_ge :
    ∀ ts : List NodeItem, ∀ s c, s ≤ (recalculateLayoutP0 ts s c).2 := by
  refine forestInd ?_ ?_
  · intro s c; simp
  · intro n rest _ iht s c
    rw [recalculateLayoutP0_cons2]
    have h := iht (max (s + 1) (recalculateLayoutP0 n.children (s + 1) (c + 1)).2) c
    omega

/-- Every node of the `page.tsx` layout result has its row in
`[startRow, returned nextRow)`. -/
theorem recalc_rows :
    ∀ ts : List NodeItem, ∀ s c, ∀ m ∈ flattenTree (recalculateLayout ts s c).1,
      s ≤ m.row ∧ m.row < (recalculateLayout ts s c).2 := by
  refine forestInd ?_ ?_
  · intro s c m hm; simp at hm
  · intro n rest ihc iht s c m hm
    rw [recalculateLayout_cons2] at hm ⊢
    have hrest := recalc_ret_ge rest
      (max (s + 1) (recalculateLayout n.children s (c + 1)).2) c
    simp only [flattenTree_cons, List.mem_append, flattenNode_def, List.mem_cons] at hm
    rcases hm with (rfl | hm) | hm
    · refine ⟨Nat.le_refl s, ?_⟩
      exact lt_of_lt_of_le (lt_of_lt_of_le (Nat.lt_succ_self s) (le_max_left _ _)) hrest
    · have h := ihc s (c + 1) m hm
      exact ⟨h.1, lt_of_lt_of_le (lt_of_lt_of_le h.2 (le_max_right _ _)) hrest⟩
    · have h := iht (max (s + 1) (recalculateLayout n.children s (c + 1)).2) c m hm
      exact ⟨le_trans (le_trans (Nat.le_succ s) (le_max_left _ _)) h.1, h.2⟩

/-- Every node of the `part_000` layout result has its row in
`[startRow, returned nextRow)`. -/
theorem recalcP0_rows :
    ∀ ts : List NodeItem, ∀ s c, ∀ m ∈ flattenTree (recalculateLayoutP0 ts s c).1,
      s ≤ m.row ∧ m.row < (recalculateLayoutP0 ts s c).2 := by
  refine forestInd ?_ ?_
  · intro s c m hm; simp at hm
  · intro n rest ihc iht s c m hm
    rw [recalculateLayoutP0_cons2] at hm ⊢
    have hrest := recalcP0_ret_ge rest
      (max (s + 1) (recalculateLayoutP0 n.children (s + 1) (c + 1)).2) c
    simp only [flattenTree_cons, List.mem_append, flattenNode_def, List.mem_cons] at hm
    rcases hm with (rfl | hm) | hm
    · refine ⟨Nat.le_refl s, ?_⟩
      exact lt_of_lt_of_le (lt_of_lt_of_le (Nat.lt_succ_self s) (le_max_left _ _)) hrest
    · have h := ihc (s + 1) (c + 1) m hm
      exact ⟨le_trans (Nat.le_succ s) h.1,
        lt_of_lt_of_le (lt_of_lt_of_le h.2 (le_max_right _ _)) hrest⟩
    · have h := iht (max (s + 1) (recalculateLayoutP0 n.children (s + 1) (c + 1)).2) c m hm
      exact ⟨le_trans (le_trans (Nat.le_succ s) (le_max_left _ _)) h.1, h.2⟩

/-- The `page.tsx` layout pass changes only `col`/`row`: the `stripLayout`
image of the forest is untouched. -/
theorem recalc_strip :
    ∀ ts : List NodeItem, ∀ s c,
      ((recalculateLayout ts s c).1).map stripLayout = ts.map stripLayout := by
  refine forestInd ?_ ?_
  · intro s c; simp
  · intro n rest ihc iht s c
    rw [recalculateLayout_cons2]
    simp only [List.map_cons, stripLayout_def]
    rw [stripLayoutList_eq_map, ihc s (c + 1), ← stripLayoutList_eq_map,
      iht (max (s + 1) (recalculateLayout n.children s (c + 1)).2) c]

/-- The `part_000` layout pass changes only `col`/`row`. -/
theorem recalcP0_strip :
    ∀ ts : List NodeItem, ∀ s c,
      ((recalculateLayoutP0 ts s c).1).map stripLayout = ts.map stripLayout := by
  refine forestInd ?_ ?_
  · intro s c; simp
  · intro n rest ihc iht s c
    rw [recalculateLayoutP0_cons2]
    simp only [List.map_cons, stripLayout_def]
    rw [stripLayoutList_eq_map, ihc (s + 1) (c + 1), ← stripLayoutList_eq_map,
      iht (max (s + 1) (recalculateLayoutP0 n.children (s + 1) (c + 1)).2) c]

/-- In the `page.tsx` layout result, a child's row is at least its parent's
row (the first child shares the parent's row). -/
theorem recalc_parent_child :
    ∀ ts : List NodeItem, ∀ s c, ∀ p ∈ flattenTree (recalculateLayout ts s c).1,
      ∀ d ∈ flattenTree p.children, p.row ≤ d.row := by
  refine forestInd ?_ ?_
  · intro s c p hp; simp at hp
  · intro n rest ihc iht s c p hp d hd
    rw [recalculateLayout_cons2] at hp
    simp only [flattenTree_cons, List.mem_append, flattenNode_def, List.mem_cons] at hp
    rcases hp with (rfl | hp) | hp
    · exact (recalc_rows n.children s (c + 1) d hd).1
    · exact ihc s (c + 1) p hp d hd
    · exact iht (max (s + 1) (recalculateLayout n.children s (c + 1)).2) c p hp d hd

/-- In the `part_000` layout result, a child's row is strictly greater than
its parent's row. -/
theorem recalcP0_parent_child :
    ∀ ts : List NodeItem, ∀ s c, ∀ p ∈ flattenTree (recalculateLayoutP0 ts s c).1,
      ∀ d ∈ flattenTree p.children, p.row < d.row := by
  refine forestInd ?_ ?_
  · intro s c p hp; simp at hp
  · intro n rest ihc iht s c p hp d hd
    rw [recalculateLayoutP0_cons2] at hp
    simp only [flattenTree_cons, List.mem_append, flattenNode_def, List.mem_cons] at hp
    rcases hp with (rfl | hp) | hp
    · exact lt_of_lt_of_le (Nat.lt_succ_self s)
        (recalcP0_rows n.children (s + 1) (c + 1) d hd).1
    · exact ihc (s + 1) (c + 1) p hp d hd
    · exact iht (max (s + 1) (recalculateLayoutP0 n.children (s + 1) (c + 1)).2) c p hp d hd

/-- In the `page.tsx` layout result, the top-level subtrees and every node's
children subtrees occupy pairwise row-disjoint, strictly ordered ranges. -/
theorem recalc_pairwise :
    ∀ ts : List NodeItem, ∀ s c,
      ((recalculateLayout ts s c).1).Pairwise RowLT ∧
      ∀ p ∈ flattenTree (recalculateLayout ts s c).1, p.children.Pairwise RowLT := by
  refine forestInd ?_ ?_
  · intro s c; constructor
    · simp
    · intro p hp; simp at hp
  · intro n rest ihc iht s c
    rw [recalculateLayout_cons2]
    constructor
    · rw [List.pairwise_cons]
      constructor
      · intro u hu a ha b hb
        have hbmem : b ∈ flattenTree (recalculateLayout rest
            (max (s + 1) (recalculateLayout n.children s (c + 1)).2) c).1 := by
          refine flattenNode_subset _ u ?_ b hb
          exact self_mem_flattenTree _ u hu
        have hbrow := recalc_rows rest
          (max (s + 1) (recalculateLayout n.children s (c + 1)).2) c b hbmem
        have harow : a.row < max (s + 1) (recalculateLayout n.children s (c + 1)).2 := by
          rw [flattenNode_def] at ha
          rcases List.mem_cons.1 ha with rfl | ha
          · exact lt_of_lt_of_le (Nat.lt_succ_self s) (le_max_left _ _)
          · exact lt_of_lt_of_le (recalc_rows n.children s (c + 1) a ha).2
              (le_max_right _ _)
        exact lt_of_lt_of_le harow hbrow.1
      · exact (iht (max (s + 1) (recalculateLayout n.children s (c + 1)).2) c).1
    · intro p hp
      simp only [flattenTree_cons, List.mem_append, flattenNode_def, List.mem_cons] at hp
      rcases hp with (rfl | hp) | hp
      · exact (ihc s (c + 1)).1
      · exact (ihc s (c + 1)).2 p hp
      · exact (iht (max (s + 1) (recalculateLayout n.children s (c + 1)).2) c).2 p hp

/-- In the `part_000` layout result, the top-level subtrees and every node's
children subtrees occupy pairwise row-disjoint, strictly ordered ranges. -/
theorem recalcP0_pairwise :
    ∀ ts : List NodeItem, ∀ s c,
      ((recalculateLayoutP0 ts s c).1).Pairwise RowLT ∧
      ∀ p ∈ flattenTree (recalculateLayoutP0 ts s c).1, p.children.Pairwise RowLT := by
  refine forestInd ?_ ?_
  · intro s c; constructor
    · simp
    · intro p hp; simp at hp
  · intro n rest ihc iht s c
    rw [recalculateLayoutP0_cons2]
    constructor
    · rw [List.pairwise_cons]
      constructor
      · intro u hu a ha b hb
        have hbmem : b ∈ flattenTree (recalculateLayoutP0 rest
            (max (s + 1) (recalculateLayoutP0 n.children (s + 1) (c + 1)).2) c).1 := by
          refine flattenNode_subset _ u ?_ b hb
          exact self_mem_flattenTree _ u hu
        have hbrow := recalcP0_rows rest
          (max (s + 1) (recalculateLayoutP0 n.children (s + 1) (c + 1)).2) c b hbmem
        have harow : a.row < max (s + 1) (recalculateLayoutP0 n.children (s + 1) (c + 1)).2 := by
          rw [flattenNode_def] at ha
          rcases List.mem_cons.1 ha with rfl | ha
          · exact lt_of_lt_of_le (Nat.lt_succ_self s) (le_max_left _ _)
          · exact lt_of_lt_of_le (recalcP0_rows n.children (s + 1) (c + 1) a ha).2
              (le_max_right _ _)
        exact lt_of_lt_of_le harow hbrow.1
      · exact (iht (max (s + 1) (recalculateLayoutP0 n.children (s + 1) (c + 1)).2) c).1
    · intro p hp
      simp only [flattenTree_cons, List.mem_append, flattenNode_def, List.mem_cons] at hp
      rcases hp with (rfl | hp) | hp
      · exact (ihc (s + 1) (c + 1)).1
      · exact (ihc (s + 1) (c + 1)).2 p hp
      · exact (iht (max (s + 1) (recalculateLayoutP0 n.children (s + 1) (c + 1)).2) c).2 p hp

/-- Splitting a contiguous row range at a head element and a partition
point. -/
theorem rangeSplit (s k1 k2 : Nat) :
    List.range' s (1 + k1 + k2) =
      s :: (List.range' (s + 1) k1 ++ List.range' (s + 1 + k1) k2) := by
  have h := List.range'_append (s + 1) k1 k2 1
  simp only [one_mul] at h
  rw [show 1 + k1 + k2 = (k2 + k1) + 1 by omega, List.range'_succ, ← h]

/-- The `part_000` layout assigns exactly the rows
`startRow, startRow + 1, …` to the pre-order traversal: one node per row,
increasing by one per node visited, and the returned next row is
`startRow + size`. -/
theorem recalcP0_rows_eq :
    ∀ ts : List NodeItem, ∀ s c,
      (recalculateLayoutP0 ts s c).2 = s + (flattenTree ts).length ∧
      (flattenTree (recalculateLayoutP0 ts s c).1).map NodeItem.row =
        List.range' s (flattenTree ts).length := by
  refine forestInd ?_ ?_
  · intro s c; simp
  · intro n rest ihc iht s c
    rw [recalculateLayoutP0_cons2]
    obtain ⟨ihc2, ihc1⟩ := ihc (s + 1) (c + 1)
    have hmax : max (s + 1) (recalculateLayoutP0 n.children (s + 1) (c + 1)).2 =
        s + 1 + (flattenTree n.children).length := by
      omega
    obtain ⟨iht2, iht1⟩ :=
      iht (max (s + 1) (recalculateLayoutP0 n.children (s + 1) (c + 1)).2) c
    constructor
    · rw [iht2, hmax]
      simp only [flattenTree_cons, flattenNode_def, List.length_append, List.length_cons]
      omega
    · simp only [flattenTree_cons, flattenNode_def, List.map_cons, List.map_append,
        List.length_append, List.length_cons]
      rw [show ((flattenTree n.children).length + 1 + (flattenTree rest).length) =
        1 + (flattenTree n.children).length + (flattenTree rest).length by omega]
      rw [rangeSplit, ← hmax]
      exact congrArg₂ List.cons rfl (congrArg₂ (fun a b => a ++ b) ihc1 iht1)

/-! ### maxCount, Nodup bookkeeping and updateTree lemmas -/

/-- Structure eta for nodes. -/
theorem node_eta (n : NodeItem) : { n with children := n.children } = n := by
  cases n; rfl

/-- Splitting a Nodup id list at a cons. -/
theorem nodup_cons_parts {n : NodeItem} {rest : List NodeItem}
    (h : (ids (n :: rest)).Nodup) :
    (ids n.children).Nodup ∧ (ids rest).Nodup ∧ n.id ∉ ids n.children ∧
      (∀ a ∈ idsN n, a ∉ ids rest) := by
  rw [ids_cons, idsN_def] at h
  rw [List.cons_append, List.nodup_cons, List.nodup_append] at h
  obtain ⟨hnotin, hc, hr, hdisj⟩ := h
  refine ⟨hc, hr, fun hmem => hnotin (List.mem_append.2 (Or.inl hmem)), ?_⟩
  intro a ha
  rw [idsN_def, List.mem_cons] at ha
  rcases ha with rfl | ha
  · exact fun hmem => hnotin (List.mem_append.2 (Or.inr hmem))
  · exact fun hmem => hdisj ha hmem

theorem maxCount_pos_mem :
    ∀ ts : List NodeItem, ∀ j, 1 ≤ maxCount j ts → j ∈ ids ts := by
  refine forestInd ?_ ?_
  · intro j h; simp at h
  · intro n rest ihc iht j h
    simp only [maxCount_cons, maxCountNode_def] at h
    simp only [ids_cons, idsN_def, List.cons_append, List.mem_cons, List.mem_append]
    by_cases hn : n.id = j
    · exact Or.inl hn.symm
    · rw [if_neg hn] at h
      rcases Nat.lt_or_ge 0 (maxCount j n.children) with hc | hc
      · exact Or.inr (Or.inl (ihc j hc))
      · have hr : 1 ≤ maxCount j rest := by omega
        exact Or.inr (Or.inr (iht j hr))

theorem mem_maxCount_pos :
    ∀ ts : List NodeItem, ∀ j, j ∈ ids ts → 1 ≤ maxCount j ts := by
  refine forestInd ?_ ?_
  · intro j h; simp at h
  · intro n rest ihc iht j h
    simp only [ids_cons, idsN_def, List.cons_append, List.mem_cons, List.mem_append] at h
    simp only [maxCount_cons, maxCountNode_def]
    by_cases hn : n.id = j
    · rw [if_pos hn]; omega
    · rw [if_neg hn]
      rcases h with rfl | h
      · exact absurd rfl hn
      rcases h with h | h
      · have := ihc j h; omega
      · have := iht j h; omega

theorem maxCount_le_count :
    ∀ ts : List NodeItem, ∀ j, maxCount j ts ≤ (ids ts).count j := by
  refine forestInd ?_ ?_
  · intro j; simp
  · intro n rest ihc iht j
    have h1 := ihc j
    have h2 := iht j
    simp only [maxCount_cons, maxCountNode_def, ids_cons, idsN_def, List.cons_append,
      List.count_append, List.count_cons, beq_iff_eq]
    by_cases hn : n.id = j
    · simp only [if_pos hn]
      omega
    · simp only [if_neg hn]
      omega

/-- Under unique ids, a present id has exactly one maximal occurrence. -/
theorem nodup_maxCount_one {ts : List NodeItem} {j : Nat}
    (hnd : (ids ts).Nodup) (hj : j ∈ ids ts) : maxCount j ts = 1 := by
  have h1 := mem_maxCount_pos ts j hj
  have h2 := maxCount_le_count ts j
  have h3 : (ids ts).count j ≤ 1 := List.nodup_iff_count_le_one.1 hnd j
  omega

theorem updateTree_maxCount_zero (j : Nat) (f : NodeItem → NodeItem) :
    ∀ ts : List NodeItem, maxCount j ts = 0 → updateTree ts j f = ts := by
  refine forestInd ?_ ?_
  · intro _; rfl
  · intro n rest ihc iht h
    simp only [maxCount_cons, maxCountNode_def] at h
    by_cases hn : n.id = j
    · rw [if_pos hn] at h; omega
    · rw [if_neg hn] at h
      rw [updateTree_cons, if_neg hn, iht (by omega)]
      by_cases hcs : n.children.length ≠ 0
      · rw [if_pos hcs, updateTreeNode_def, ihc (by omega), node_eta]
      · rw [if_neg hcs]

/-- `updateTree` with the append-child updater leaves the top-level id
sequence unchanged. -/
theorem updateTree_top_ids (j : Nat) (x : NodeItem) (ts : List NodeItem) :
    (updateTree ts j (appendChildFn x)).map NodeItem.id = ts.map NodeItem.id := by
  induction ts with
  | nil => rfl
  | cons n rest ih =>
    rw [updateTree_cons]
    simp only [List.map_cons, ih]
    by_cases hn : n.id = j
    · rw [if_pos hn]; rfl
    · rw [if_neg hn]
      by_cases hcs : n.children.length ≠ 0
      · rw [if_pos hcs, updateTreeNode_def]
      · rw [if_neg hcs]

/-- Under unique ids, `updateTree` with the append-child updater really
appends `x` at the end of the target's children: the updated target is in the
new forest. -/
theorem updateTree_append_apply (j : Nat) (x : NodeItem) :
    ∀ ts : List NodeItem, (ids ts).Nodup → ∀ t ∈ flattenTree ts, t.id = j →
      { t with children := t.children ++ [x] } ∈
        flattenTree (updateTree ts j (appendChildFn x)) := by
  refine forestInd ?_ ?_
  · intro _ t ht; simp at ht
  · intro n rest ihc iht hnd t ht htj
    obtain ⟨hndc, hndr, hninc, hdisj⟩ := nodup_cons_parts hnd
    rw [updateTree_cons]
    simp only [flattenTree_cons, flattenNode_def, List.mem_cons, List.mem_append] at ht ⊢
    rcases ht with (rfl | ht) | ht
    · rw [if_pos htj]
      exact Or.inl (Or.inl rfl)
    · have htid : t.id ∈ ids n.children := (mem_ids _ _).2 ⟨t, ht, rfl⟩
      have hn : n.id ≠ j := fun h => hninc (h ▸ htj ▸ htid)
      have hcs : n.children.length ≠ 0 := by
        intro h
        rw [List.length_eq_zero] at h
        rw [h] at ht
        simp at ht
      rw [if_neg hn, if_pos hcs, updateTreeNode_def]
      exact Or.inl (Or.inr (ihc hndc t ht htj))
    · exact Or.inr (iht hndr t ht htj)

/-- `updateTree` with the append-child updater adds exactly the ids of the
appended subtree when the target has exactly one maximal occurrence. -/
theorem updateTree_count (j : Nat) (x : NodeItem) :
    ∀ ts : List NodeItem, maxCount j ts = 1 → ∀ a : Nat,
      (ids (updateTree ts j (appendChildFn x))).count a =
        (ids ts).count a + (idsN x).count a := by
  refine forestInd ?_ ?_
  · intro h; simp at h
  · intro n rest ihc iht h a
    simp only [maxCount_cons, maxCountNode_def] at h
    rw [updateTree_cons]
    by_cases hn : n.id = j
    · rw [if_pos hn] at h ⊢
      have hrest : maxCount j rest = 0 := by omega
      rw [updateTree_maxCount_zero j _ rest hrest]
      simp only [appendChildFn, ids_cons, idsN_def, ids_nil, List.cons_append,
        List.count_cons, List.count_append, ids_append, List.append_nil]
      omega
    · rw [if_neg hn] at h ⊢
      by_cases hcs : n.children.length ≠ 0
      · rw [if_pos hcs, updateTreeNode_def]
        rcases Nat.lt_or_ge 0 (maxCount j n.children) with hc | hc
        · have hc1 : maxCount j n.children = 1 := by omega
          have hrest : maxCount j rest = 0 := by omega
          rw [updateTree_maxCount_zero j _ rest hrest]
          have h2 := ihc hc1 a
          simp only [ids_cons, idsN_def, List.cons_append, List.count_cons,
            List.count_append] at h2 ⊢
          omega
        · have hc0 : maxCount j n.children = 0 := by omega
          have hrest : maxCount j rest = 1 := by omega
          rw [updateTree_maxCount_zero j _ n.children hc0, node_eta]
          have h2 := iht hrest a
          simp only [ids_cons, idsN_def, List.cons_append, List.count_cons,
            List.count_append] at h2 ⊢
          omega
      · rw [if_neg hcs]
        have hcs0 : n.children = [] := List.length_eq_zero.1 (by omega)
        have hc0 : maxCount j n.children = 0 := by rw [hcs0]; rfl
        have hrest : maxCount j rest = 1 := by omega
        have h2 := iht hrest a
        simp only [ids_cons, idsN_def, List.cons_append, List.count_cons,
          List.count_append] at h2 ⊢
        omega

/-- `updateTree` with the append-child updater grows the flattening by the
size of the appended subtree once per maximal occurrence of the target. -/
theorem updateTree_len (j : Nat) (x : NodeItem) :
    ∀ ts : List NodeItem, maxCount j ts = 1 →
      (flattenTree (updateTree ts j (appendChildFn x))).length =
        (flattenTree ts).length + (flattenNode x).length := by
  refine forestInd ?_ ?_
  · intro h; simp at h
  · intro n rest ihc iht h
    simp only [maxCount_cons, maxCountNode_def] at h
    rw [updateTree_cons]
    by_cases hn : n.id = j
    · rw [if_pos hn] at h ⊢
      have hrest : maxCount j rest = 0 := by omega
      rw [updateTree_maxCount_zero j _ rest hrest]
      simp only [flattenTree_cons, flattenTree_nil, List.length_nil, List.length_append,
        appendChildFn, flattenNode_def, List.length_cons, flattenTree_append]
      omega
    · rw [if_neg hn] at h ⊢
      by_cases hcs : n.children.length ≠ 0
      · rw [if_pos hcs, updateTreeNode_def]
        rcases Nat.lt_or_ge 0 (maxCount j n.children) with hc | hc
        · have hc1 : maxCount j n.children = 1 := by omega
          have hrest : maxCount j rest = 0 := by omega
          rw [updateTree_maxCount_zero j _ rest hrest]
          have h2 := ihc hc1
          simp only [flattenTree_cons, List.length_append, flattenNode_def,
            List.length_cons] at h2 ⊢
          omega
        · have hc0 : maxCount j n.children = 0 := by omega
          have hrest : maxCount j rest = 1 := by omega
          rw [updateTree_maxCount_zero j _ n.children hc0, node_eta]
          have h2 := iht hrest
          simp only [flattenTree_cons, List.length_append, flattenNode_def,
            List.length_cons] at h2 ⊢
          omega
      · rw [if_neg hcs]
        have hcs0 : n.children = [] := List.length_eq_zero.1 (by omega)
        have hc0 : maxCount j n.children = 0 := by rw [hcs0]; rfl
        have hrest : maxCount j rest = 1 := by omega
        have h2 := iht hrest
        simp only [flattenTree_cons, List.length_append, flattenNode_def,
          List.length_cons] at h2 ⊢
        omega

/-- Where the nodes of an updated forest come from: the modified target, an
unmodified node whose immediate structure is unchanged, or the appended
subtree. -/
theorem updateTree_mem_char (j : Nat) (x : NodeItem) :
    ∀ ts : List NodeItem, ∀ m2 ∈ flattenTree (updateTree ts j (appendChildFn x)),
      (m2.id = j ∧ ∃ m ∈ flattenTree ts, m.id = j ∧
        m2 = { m with children := m.children ++ [x] }) ∨
      (∃ m ∈ flattenTree ts, m2.id = m.id ∧ m2.label = m.label ∧
        m2.isCut = m.isCut ∧ m2.parentId = m.parentId ∧ childIds m2 = childIds m) ∨
      m2 ∈ flattenNode x := by
  refine forestInd ?_ ?_
  · intro m2 hm2; simp at hm2
  · intro n rest ihc iht m2 hm2
    rw [updateTree_cons] at hm2
    have hmemn : n ∈ flattenTree (n :: rest) := by
      rw [flattenTree_cons, flattenNode_def]
      exact List.mem_append_left _ (List.mem_cons_self _ _)
    have hmemc : ∀ m ∈ flattenTree n.children, m ∈ flattenTree (n :: rest) := by
      intro m hm
      rw [flattenTree_cons, flattenNode_def]
      exact List.mem_append_left _ (List.mem_cons_of_mem _ hm)
    have hmemr : ∀ m ∈ flattenTree rest, m ∈ flattenTree (n :: rest) := by
      intro m hm
      rw [flattenTree_cons]
      exact List.mem_append_right _ hm
    by_cases hn : n.id = j
    · rw [if_pos hn] at hm2
      simp only [flattenTree_cons, List.mem_append, flattenNode_def, List.mem_cons] at hm2
      rcases hm2 with (hm2 | hm2) | hm2
      · subst hm2
        exact Or.inl ⟨hn, n, hmemn, hn, rfl⟩
      · simp only [appendChildFn] at hm2
        rw [flattenTree_append] at hm2
        rcases List.mem_append.1 hm2 with hm2 | hm2
        · exact Or.inr (Or.inl ⟨m2, hmemc m2 hm2, rfl, rfl, rfl, rfl, rfl⟩)
        · right; right
          simpa using hm2
      · rcases iht m2 hm2 with ⟨hid, m, hm, hmj, heq⟩ | ⟨m, hm, hs⟩ | h
        · exact Or.inl ⟨hid, m, hmemr m hm, hmj, heq⟩
        · exact Or.inr (Or.inl ⟨m, hmemr m hm, hs⟩)
        · exact Or.inr (Or.inr h)
    · rw [if_neg hn] at hm2
      by_cases hcs : n.children.length ≠ 0
      · rw [if_pos hcs] at hm2
        simp only [flattenTree_cons, List.mem_append, flattenNode_def, List.mem_cons,
          updateTreeNode_def] at hm2
        rcases hm2 with (hm2 | hm2) | hm2
        · subst hm2
          refine Or.inr (Or.inl ⟨n, hmemn, rfl, rfl, rfl, rfl, ?_⟩)
          simp only [childIds]
          exact updateTree_top_ids j x n.children
        · rcases ihc m2 hm2 with ⟨hid, m, hm, hmj, heq⟩ | ⟨m, hm, hs⟩ | h
          · exact Or.inl ⟨hid, m, hmemc m hm, hmj, heq⟩
          · exact Or.inr (Or.inl ⟨m, hmemc m hm, hs⟩)
          · exact Or.inr (Or.inr h)
        · rcases iht m2 hm2 with ⟨hid, m, hm, hmj, heq⟩ | ⟨m, hm, hs⟩ | h
          · exact Or.inl ⟨hid, m, hmemr m hm, hmj, heq⟩
          · exact Or.inr (Or.inl ⟨m, hmemr m hm, hs⟩)
          · exact Or.inr (Or.inr h)
      · rw [if_neg hcs] at hm2
        simp only [flattenTree_cons, List.mem_append, flattenNode_def, List.mem_cons] at hm2
        rcases hm2 with (hm2 | hm2) | hm2
        · subst hm2
          exact Or.inr (Or.inl ⟨m2, hmemn, rfl, rfl, rfl, rfl, rfl⟩)
        · exact Or.inr (Or.inl ⟨m2, hmemc m2 hm2, rfl, rfl, rfl, rfl, rfl⟩)
        · rcases iht m2 hm2 with ⟨hid, m, hm, hmj, heq⟩ | ⟨m, hm, hs⟩ | h
          · exact Or.inl ⟨hid, m, hmemr m hm, hmj, heq⟩
          · exact Or.inr (Or.inl ⟨m, hmemr m hm, hs⟩)
          · exact Or.inr (Or.inr h)

/-- If a subtree contains no node with the target id, `updateTree` leaves it
untouched wherever it sits in the forest. -/
theorem updateTree_preserve (j : Nat) (x : NodeItem) :
    ∀ ts : List NodeItem, ∀ t ∈ flattenTree ts, j ∉ idsN t →
      t ∈ flattenTree (updateTree ts j (appendChildFn x)) := by
  refine forestInd ?_ ?_
  · intro t ht; simp at ht
  · intro n rest ihc iht t ht hnotin
    rw [updateTree_cons]
    simp only [flattenTree_cons, List.mem_append, flattenNode_def, List.mem_cons]
      at ht ⊢
    rcases ht with (rfl | ht) | ht
    · -- t is the head itself: its subtree has no j, so the head is unchanged
      have hn : t.id ≠ j := by
        intro h
        exact hnotin (by rw [idsN_def, h]; exact List.mem_cons_self _ _)
      have hc : maxCount j t.children = 0 := by
        by_contra h
        have h1 : 1 ≤ maxCount j t.children := by omega
        have := maxCount_pos_mem t.children j h1
        exact hnotin (by rw [idsN_def]; exact List.mem_cons_of_mem _ this)
      rw [if_neg hn]
      by_cases hcs : t.children.length ≠ 0
      · rw [if_pos hcs, updateTreeNode_def, updateTree_maxCount_zero j _ _ hc, node_eta]
        exact Or.inl (Or.inl rfl)
      · rw [if_neg hcs]
        exact Or.inl (Or.inl rfl)
    · -- t is inside the head's children
      by_cases hn : n.id = j
      · rw [if_pos hn]
        simp only [appendChildFn, flattenTree_append]
        left; right
        exact List.mem_append.2 (Or.inl ht)
      · rw [if_neg hn]
        by_cases hcs : n.children.length ≠ 0
        · rw [if_pos hcs, updateTreeNode_def]
          exact Or.inl (Or.inr (ihc t ht hnotin))
        · rw [if_neg hcs]
          exact Or.inl (Or.inr ht)
    · exact Or.inr (iht t ht hnotin)

/-! ### removeFrom and occursOutside lemmas -/

theorem removeFrom_not_mem (i : Nat) :
    ∀ ts : List NodeItem, ∀ m ∈ flattenTree (removeFrom i ts), m.id ≠ i := by
  refine forestInd ?_ ?_
  · intro m hm; simp at hm
  · intro n rest ihc iht m hm
    rw [removeFrom_cons] at hm
    by_cases hn : n.id = i
    · rw [if_pos hn] at hm
      exact iht m hm
    · rw [if_neg hn] at hm
      simp only [flattenTree_cons, List.mem_append, removeFromNode_def, flattenNode_def,
        List.mem_cons] at hm
      rcases hm with (rfl | hm) | hm
      · exact hn
      · exact ihc m hm
      · exact iht m hm

theorem removeFrom_ids_sublist (i : Nat) :
    ∀ ts : List NodeItem, (ids (removeFrom i ts)).Sublist (ids ts) := by
  refine forestInd ?_ ?_
  · simp
  · intro n rest ihc iht
    rw [removeFrom_cons]
    by_cases hn : n.id = i
    · rw [if_pos hn]
      rw [ids_cons]
      exact iht.trans (List.sublist_append_right _ _)
    · rw [if_neg hn]
      rw [ids_cons, ids_cons, idsN_def, idsN_def, removeFromNode_def]
      exact List.Sublist.append (List.Sublist.cons₂ _ ihc) iht

/-- A node that does not sit below any node with the removed id survives
`removeFrom` (with its id). -/
theorem removeFrom_keep (i : Nat) :
    ∀ ts : List NodeItem, ∀ t ∈ flattenTree ts, t.id ≠ i →
      (∀ u ∈ flattenTree ts, u.id = i → t ∉ flattenTree u.children) →
      ∃ t2 ∈ flattenTree (removeFrom i ts), t2.id = t.id := by
  refine forestInd ?_ ?_
  · intro t ht; simp at ht
  · intro n rest ihc iht t ht hti hout
    have hmemn : n ∈ flattenTree (n :: rest) := by
      rw [flattenTree_cons, flattenNode_def]
      exact List.mem_append_left _ (List.mem_cons_self _ _)
    have hmemc : ∀ m ∈ flattenTree n.children, m ∈ flattenTree (n :: rest) := by
      intro m hm
      rw [flattenTree_cons, flattenNode_def]
      exact List.mem_append_left _ (List.mem_cons_of_mem _ hm)
    have hmemr : ∀ m ∈ flattenTree rest, m ∈ flattenTree (n :: rest) := by
      intro m hm
      rw [flattenTree_cons]
      exact List.mem_append_right _ hm
    rw [removeFrom_cons]
    simp only [flattenTree_cons, List.mem_append, flattenNode_def, List.mem_cons] at ht
    rcases ht with (rfl | ht) | ht
    · have hn : t.id ≠ i := hti
      rw [if_neg hn]
      refine ⟨removeFromNode i t, ?_, by rw [removeFromNode_def]⟩
      rw [flattenTree_cons, flattenNode_def]
      exact List.mem_append_left _ (List.mem_cons_self _ _)
    · by_cases hn : n.id = i
      · exact absurd ht (hout n hmemn hn)
      · rw [if_neg hn]
        obtain ⟨t2, ht2, hid⟩ := ihc t ht hti
          (fun u hu hui => hout u (hmemc u hu) hui)
        refine ⟨t2, ?_, hid⟩
        rw [flattenTree_cons, flattenNode_def, removeFromNode_def]
        exact List.mem_append_left _ (List.mem_cons_of_mem _ ht2)
    · obtain ⟨t2, ht2, hid⟩ := iht t ht hti (fun u hu hui => hout u (hmemr u hu) hui)
      by_cases hn : n.id = i
      · rw [if_pos hn]
        exact ⟨t2, ht2, hid⟩
      · rw [if_neg hn]
        refine ⟨t2, ?_, hid⟩
        rw [flattenTree_cons]
        exact List.mem_append_right _ ht2

/-- The ids surviving `removeFrom i` are exactly those occurring outside every
`i`-subtree. -/
theorem mem_ids_removeFrom (i j : Nat) :
    ∀ ts : List NodeItem, j ∈ ids (removeFrom i ts) ↔ occursOutside i j ts = true := by
  refine forestInd ?_ ?_
  · simp
  · intro n rest ihc iht
    rw [removeFrom_cons, occursOutside_cons, occursOutsideNode_def]
    by_cases hn : n.id = i
    · rw [if_pos hn, if_pos hn]
      simp only [Bool.false_or]
      exact iht
    · rw [if_neg hn, if_neg hn]
      simp only [ids_cons, idsN_def, removeFromNode_def, List.cons_append,
        List.mem_cons, List.mem_append, Bool.or_eq_true, beq_iff_eq, ihc, iht]
      constructor
      · rintro (h | h | h)
        · exact Or.inl (Or.inl h.symm)
        · exact Or.inl (Or.inr h)
        · exact Or.inr h
      · rintro ((h | h) | h)
        · exact Or.inl h.symm
        · exact Or.inr (Or.inl h)
        · exact Or.inr (Or.inr h)

theorem occursOutside_mem {i j : Nat} {ts : List NodeItem}
    (h : occursOutside i j ts = true) : j ∈ ids ts :=
  (removeFrom_ids_sublist i ts).subset ((mem_ids_removeFrom i j ts).2 h)

theorem occursOutside_false_of_not_mem {i j : Nat} {ts : List NodeItem}
    (h : j ∉ ids ts) : occursOutside i j ts = false := by
  rcases Bool.eq_false_or_eq_true (occursOutside i j ts) with h1 | h1
  · exact absurd (occursOutside_mem h1) h
  · exact h1

/-- The ids of a member subtree are ids of the forest. -/
theorem idsN_subset {ts : List NodeItem} {u : NodeItem} (hu : u ∈ flattenTree ts) :
    ∀ a ∈ idsN u, a ∈ ids ts := by
  intro a ha
  rw [idsN_def, List.mem_cons] at ha
  rw [mem_ids]
  rcases ha with rfl | ha
  · exact ⟨u, hu, rfl⟩
  · rw [mem_ids] at ha
    obtain ⟨m, hm, rfl⟩ := ha
    exact ⟨m, mem_flattenTree_trans ts u hu m hm, rfl⟩

/-- The ids of a subtree of a member node are ids of the forest member's
subtree. -/
theorem idsN_subset_node {n u : NodeItem} (hu : u ∈ flattenNode n) :
    ∀ a ∈ idsN u, a ∈ idsN n := by
  intro a ha
  have hu2 : u ∈ flattenTree [n] := by
    rw [flattenTree_cons, flattenTree_nil, List.append_nil]
    exact hu
  have h := idsN_subset hu2 a ha
  rw [ids_cons, ids_nil, List.append_nil] at h
  exact h

/-- Under unique ids, an id occurring inside the subtree of a node `u` never
occurs outside the `u.id`-subtrees: `removeFrom u.id` erases it completely. -/
theorem occursOutside_false_of_inside :
    ∀ ts : List NodeItem, (ids ts).Nodup → ∀ u ∈ flattenTree ts, ∀ j ∈ idsN u,
      occursOutside u.id j ts = false := by
  refine forestInd ?_ ?_
  · intro _ u hu; simp at hu
  · intro n rest ihc iht hnd u hu j hj
    obtain ⟨hndc, hndr, hninc, hdisj⟩ := nodup_cons_parts hnd
    rw [occursOutside_cons, occursOutsideNode_def, Bool.or_eq_false_iff]
    simp only [flattenTree_cons, List.mem_append, flattenNode_def, List.mem_cons] at hu
    rcases hu with (rfl | hu) | hu
    · -- u is the head node itself
      constructor
      · rw [if_pos rfl]
      · exact occursOutside_false_of_not_mem (hdisj j hj)
    · -- u is inside the head's children
      have hjc : j ∈ ids n.children := by
        have h := idsN_subset hu j hj
        exact h
      constructor
      · by_cases hn : n.id = u.id
        · rw [if_pos hn]
        · rw [if_neg hn]
          rw [Bool.or_eq_false_iff]
          constructor
          · rw [beq_eq_false_iff_ne]
            intro heq
            exact hninc (heq ▸ hjc)
          · exact ihc hndc u hu j hj
      · exact occursOutside_false_of_not_mem (fun hmem => hdisj j
          (by rw [idsN_def]; exact List.mem_cons_of_mem _ hjc) hmem)
    · -- u is in the tail
      have hjr : j ∈ ids rest := idsN_subset hu j hj
      constructor
      · by_cases hn : n.id = u.id
        · rw [if_pos hn]
        · rw [if_neg hn]
          rw [Bool.or_eq_false_iff]
          constructor
          · rw [beq_eq_false_iff_ne]
            intro heq
            exact hdisj n.id (by rw [idsN_def]; exact List.mem_cons_self _ _) (heq ▸ hjr)
          · exact occursOutside_false_of_not_mem (fun hmem =>
              hdisj j (by rw [idsN_def]; exact List.mem_cons_of_mem _ hmem) hjr)
      · exact iht hndr u hu j hj

/-! ### replaceNodeInTree lemmas -/

theorem replace_maxCount_zero (j : Nat) (u : NodeItem) :
    ∀ ts : List NodeItem, maxCount j ts = 0 → replaceNodeInTree ts j u = ts := by
  refine forestInd ?_ ?_
  · intro _; rfl
  · intro n rest ihc iht h
    simp only [maxCount_cons, maxCountNode_def] at h
    by_cases hn : n.id = j
    · rw [if_pos hn] at h; omega
    · rw [if_neg hn] at h
      rw [replaceNodeInTree_cons, if_neg hn, iht (by omega)]
      by_cases hcs : n.children.length > 0
      · rw [if_pos hcs, replaceNodeInNode_def, ihc (by omega), node_eta]
      · rw [if_neg hcs]

/-- Under unique ids, replacing the in-forest copy of `N` by its marked copy
changes nothing up to `isCut` flags. -/
theorem replace_markCut_eraseCut (N : NodeItem) :
    ∀ ts : List NodeItem, (ids ts).Nodup → N ∈ flattenTree ts →
      (replaceNodeInTree ts N.id (markCutNodes N)).map eraseCut = ts.map eraseCut := by
  refine forestInd ?_ ?_
  · intro _ hN; simp at hN
  · intro n rest ihc iht hnd hN
    obtain ⟨hndc, hndr, hninc, hdisj⟩ := nodup_cons_parts hnd
    rw [replaceNodeInTree_cons]
    simp only [flattenTree_cons, List.mem_append, flattenNode_def, List.mem_cons] at hN
    rcases hN with (rfl | hN) | hN
    · rw [if_pos rfl]
      have hrest : maxCount N.id rest = 0 := by
        by_contra h
        have h1 : 1 ≤ maxCount N.id rest := by omega
        exact hdisj N.id (by rw [idsN_def]; exact List.mem_cons_self _ _)
          (maxCount_pos_mem rest N.id h1)
      rw [replace_maxCount_zero _ _ rest hrest]
      simp only [List.map_cons, eraseCut_markCut]
    · have hNin : N.id ∈ ids n.children := idsN_subset hN N.id
        (by rw [idsN_def]; exact List.mem_cons_self _ _)
      have hn : n.id ≠ N.id := fun h => hninc (h ▸ hNin)
      have hcs : n.children.length > 0 := by
        by_contra h
        have h0 : n.children = [] := List.length_eq_zero.1 (by omega)
        rw [h0] at hNin
        simp at hNin
      rw [if_neg hn, if_pos hcs]
      have hrest : maxCount N.id rest = 0 := by
        by_contra h
        have h1 : 1 ≤ maxCount N.id rest := by omega
        exact hdisj N.id (by rw [idsN_def]; exact List.mem_cons_of_mem _ hNin)
          (maxCount_pos_mem rest N.id h1)
      rw [List.map_cons, List.map_cons, replace_maxCount_zero _ _ rest hrest]
      have hhead : eraseCut (replaceNodeInNode n N.id (markCutNodes N)) = eraseCut n := by
        simp only [replaceNodeInNode_def, eraseCut_def, eraseCutList_eq_map]
        rw [ihc hndc hN]
      rw [hhead]
    · have hNin : N.id ∈ ids rest := idsN_subset hN N.id
        (by rw [idsN_def]; exact List.mem_cons_self _ _)
      have hn : n.id ≠ N.id := fun h =>
        hdisj n.id (by rw [idsN_def]; exact List.mem_cons_self _ _) (h ▸ hNin)
      have hc : maxCount N.id n.children = 0 := by
        by_contra h
        have h1 : 1 ≤ maxCount N.id n.children := by omega
        exact hdisj N.id
          (by rw [idsN_def]; exact List.mem_cons_of_mem _ (maxCount_pos_mem _ _ h1)) hNin
      rw [if_neg hn]
      have hhead : (if n.children.length > 0 then replaceNodeInNode n N.id (markCutNodes N)
          else n) = n := by
        by_cases hcs : n.children.length > 0
        · rw [if_pos hcs, replaceNodeInNode_def, replace_maxCount_zero _ _ _ hc, node_eta]
        · rw [if_neg hcs]
      rw [hhead]
      rw [List.map_cons, List.map_cons, iht hndr hN]

/-- Under unique ids, the marked copy of `N` really sits in the forest after
the replacement. -/
theorem replace_markCut_mem (N : NodeItem) :
    ∀ ts : List NodeItem, (ids ts).Nodup → N ∈ flattenTree ts →
      markCutNodes N ∈ flattenTree (replaceNodeInTree ts N.id (markCutNodes N)) := by
  refine forestInd ?_ ?_
  · intro _ hN; simp at hN
  · intro n rest ihc iht hnd hN
    obtain ⟨hndc, hndr, hninc, hdisj⟩ := nodup_cons_parts hnd
    rw [replaceNodeInTree_cons]
    simp only [flattenTree_cons, List.mem_append, flattenNode_def, List.mem_cons] at hN
    rcases hN with (rfl | hN) | hN
    · rw [if_pos rfl]
      rw [flattenTree_cons, flattenNode_def]
      exact List.mem_append_left _ (List.mem_cons_self _ _)
    · have hNin : N.id ∈ ids n.children := idsN_subset hN N.id
        (by rw [idsN_def]; exact List.mem_cons_self _ _)
      have hn : n.id ≠ N.id := fun h => hninc (h ▸ hNin)
      have hcs : n.children.length > 0 := by
        by_contra h
        have h0 : n.children = [] := List.length_eq_zero.1 (by omega)
        rw [h0] at hNin
        simp at hNin
      rw [if_neg hn, if_pos hcs]
      rw [flattenTree_cons, flattenNode_def, replaceNodeInNode_def]
      exact List.mem_append_left _ (List.mem_cons_of_mem _ (ihc hndc hN))
    · rw [flattenTree_cons]
      exact List.mem_append_right _ (iht hndr hN)

/-! ### deepClone lemmas -/

theorem deepCloneList_ids :
    ∀ ts : List NodeItem, ∀ c : Nat,
      c ≤ (deepCloneList ts c).2 ∧
      ∀ m ∈ flattenTree (deepCloneList ts c).1,
        c ≤ m.id ∧ m.id < (deepCloneList ts c).2 := by
  refine forestInd ?_ ?_
  · intro c
    constructor
    · simp
    · intro m hm; simp at hm
  · intro n rest ihc iht c
    rw [deepCloneList_cons]
    have hd2 : (deepClone n c).2 = (deepCloneList n.children (c + 1)).2 := by
      rw [deepClone_def]
    have hid : (deepClone n c).1.id = c := by rw [deepClone_def]
    have hch : (deepClone n c).1.children = (deepCloneList n.children (c + 1)).1 := by
      rw [deepClone_def]
    obtain ⟨hc1, hc2⟩ := ihc (c + 1)
    obtain ⟨ht1, ht2⟩ := iht (deepClone n c).2
    have hc1b : c + 1 ≤ (deepClone n c).2 := by rw [hd2]; exact hc1
    have ht1b : (deepCloneList n.children (c + 1)).2 ≤
        (deepCloneList rest (deepClone n c).2).2 := by
      rw [← hd2]; exact ht1
    have hcret : c < (deepCloneList rest (deepClone n c).2).2 := by omega
    constructor
    · exact le_of_lt hcret
    · intro m hm
      simp only [flattenTree_cons, List.mem_append] at hm
      rcases hm with hm | hm
      · rw [flattenNode_def] at hm
        rcases List.mem_cons.1 hm with rfl | hm
        · rw [hid]
          exact ⟨Nat.le_refl c, hcret⟩
        · rw [hch] at hm
          have h := hc2 m hm
          exact ⟨le_trans (Nat.le_succ c) h.1, lt_of_lt_of_le h.2 ht1b⟩
      · have h := ht2 m hm
        exact ⟨le_trans (by omega : c ≤ (deepClone n c).2) h.1, h.2⟩

theorem deepCloneList_isCut :
    ∀ ts : List NodeItem, ∀ c : Nat,
      ∀ m ∈ flattenTree (deepCloneList ts c).1, m.isCut = false := by
  refine forestInd ?_ ?_
  · intro c m hm; simp at hm
  · intro n rest ihc iht c m hm
    rw [deepCloneList_cons, deepClone_def] at hm
    simp only [flattenTree_cons, List.mem_append, flattenNode_def, List.mem_cons] at hm
    rcases hm with (rfl | hm) | hm
    · rfl
    · exact ihc (c + 1) m hm
    · exact iht (deepCloneList n.children (c + 1)).2 m hm

theorem deepCloneList_skel :
    ∀ ts : List NodeItem, ∀ c : Nat, skelList (deepCloneList ts c).1 = skelList ts := by
  refine forestInd ?_ ?_
  · intro c; simp
  · intro n rest ihc iht c
    rw [deepCloneList_cons, deepClone_def]
    simp only [skelList_cons, skel_def, List.cons.injEq]
    constructor
    · rw [ihc (c + 1)]
    · exact iht (deepCloneList n.children (c + 1)).2

theorem deepClone_singleton (n : NodeItem) (c : Nat) :
    deepCloneList [n] c = ([(deepClone n c).1], (deepClone n c).2) := by
  rw [deepCloneList_cons, deepCloneList_nil]

theorem deepClone_ids (n : NodeItem) (c : Nat) :
    c ≤ (deepClone n c).2 ∧
    ∀ m ∈ flattenNode (deepClone n c).1, c ≤ m.id ∧ m.id < (deepClone n c).2 := by
  have h := deepCloneList_ids [n] c
  rw [deepClone_singleton] at h
  obtain ⟨h1, h2⟩ := h
  refine ⟨h1, fun m hm => h2 m ?_⟩
  rw [flattenTree_cons, flattenTree_nil, List.append_nil]
  exact hm

theorem deepClone_isCut (n : NodeItem) (c : Nat) :
    ∀ m ∈ flattenNode (deepClone n c).1, m.isCut = false := by
  intro m hm
  have h := deepCloneList_isCut [n] c m
  rw [deepClone_singleton] at h
  exact h (by rw [flattenTree_cons, flattenTree_nil, List.append_nil]; exact hm)

theorem deepClone_skel (n : NodeItem) (c : Nat) :
    skel (deepClone n c).1 = skel n := by
  have h := deepCloneList_skel [n] c
  rw [deepClone_singleton] at h
  simp only [skelList_cons, skelList_nil, List.cons.injEq] at h
  exact h.1

/-! ### Transfer along stripLayout equality -/

theorem strip_eq_id {a b : NodeItem} (h : stripLayout a = stripLayout b) :
    a.id = b.id := by
  have := congrArg NodeItem.id h
  simpa using this

theorem strip_eq_label {a b : NodeItem} (h : stripLayout a = stripLayout b) :
    a.label = b.label := by
  have := congrArg NodeItem.label h
  simpa using this

theorem strip_eq_isCut {a b : NodeItem} (h : stripLayout a = stripLayout b) :
    a.isCut = b.isCut := by
  have := congrArg NodeItem.isCut h
  simpa using this

theorem strip_eq_parentId {a b : NodeItem} (h : stripLayout a = stripLayout b) :
    a.parentId = b.parentId := by
  have := congrArg NodeItem.parentId h
  simpa using this

theorem strip_eq_children_map {a b : NodeItem} (h : stripLayout a = stripLayout b) :
    a.children.map stripLayout = b.children.map stripLayout := by
  have := congrArg NodeItem.children h
  simp only [stripLayout_def, stripLayoutList_eq_map] at this
  exact this

theorem strip_eq_childIds {a b : NodeItem} (h : stripLayout a = stripLayout b) :
    childIds a = childIds b := by
  have h2 := strip_eq_children_map h
  have ha : childIds a = (a.children.map stripLayout).map NodeItem.id := by
    rw [List.map_map]
    exact (List.map_congr_left (fun m _ => by simp)).symm
  have hb : childIds b = (b.children.map stripLayout).map NodeItem.id := by
    rw [List.map_map]
    exact (List.map_congr_left (fun m _ => by simp)).symm
  rw [ha, hb, h2]

theorem strip_eq_flatten {a b : NodeItem} (h : stripLayout a = stripLayout b) :
    (flattenNode a).map stripLayout = (flattenNode b).map stripLayout := by
  have h2 : [a].map stripLayout = [b].map stripLayout := by
    simp only [List.map_cons, List.map_nil, h]
  have h3 := flatten_strip_congr h2
  have ha : flattenTree [a] = flattenNode a := by
    rw [flattenTree_cons, flattenTree_nil, List.append_nil]
  have hb : flattenTree [b] = flattenNode b := by
    rw [flattenTree_cons, flattenTree_nil, List.append_nil]
  rw [ha, hb] at h3
  exact h3

/-- Transfer of subtree membership along a `stripLayout` equality. -/
theorem strip_eq_mem {a b : NodeItem} (h : stripLayout a = stripLayout b) :
    ∀ k ∈ flattenNode a, ∃ k2 ∈ flattenNode b, stripLayout k = stripLayout k2 := by
  intro k hk
  have h2 := strip_eq_flatten h
  have : stripLayout k ∈ (flattenNode a).map stripLayout := List.mem_map_of_mem _ hk
  rw [h2] at this
  obtain ⟨k2, hk2, heq⟩ := List.mem_map.1 this
  exact ⟨k2, hk2, heq.symm⟩

theorem strip_eq_idsN {a b : NodeItem} (h : stripLayout a = stripLayout b) :
    idsN a = idsN b := by
  have h2 := strip_eq_flatten h
  have ha : idsN a = ((flattenNode a).map stripLayout).map NodeItem.id := by
    rw [List.map_map, idsN]
    exact (List.map_congr_left (fun m _ => by simp)).symm
  have hb : idsN b = ((flattenNode b).map stripLayout).map NodeItem.id := by
    rw [List.map_map, idsN]
    exact (List.map_congr_left (fun m _ => by simp)).symm
  rw [ha, hb, h2]

theorem strip_eq_skel {a b : NodeItem} (h : stripLayout a = stripLayout b) :
    skel a = skel b := by
  have hs : ∀ n : NodeItem, skel (stripLayout n) = skel n := by
    have hlist : ∀ ts : List NodeItem, skelList (stripLayoutList ts) = skelList ts := by
      refine forestInd ?_ ?_
      · rfl
      · intro n rest ihc iht
        simp only [stripLayoutList_cons, skelList_cons, stripLayout_def, skel_def,
          List.cons.injEq]
        constructor
        · rw [ihc]
        · exact iht
    intro n
    have h2 := hlist [n]
    simp only [stripLayoutList_cons, stripLayoutList_nil, skelList_cons, skelList_nil,
      List.cons.injEq] at h2
    exact h2.1
  calc skel a = skel (stripLayout a) := (hs a).symm
    _ = skel (stripLayout b) := by rw [h]
    _ = skel b := hs b

/-! ### Remaining support lemmas -/

theorem deleteFrom_eq_removeFrom :
    ∀ ts : List NodeItem, ∀ cid : Nat, deleteFrom cid ts = removeFrom cid ts := by
  refine forestInd ?_ ?_
  · intro cid; rfl
  · intro n rest ihc iht cid
    rw [deleteFrom_cons, removeFrom_cons, iht cid]
    by_cases hn : n.id = cid
    · rw [if_pos hn, if_pos hn]
    · rw [if_neg hn, if_neg hn, deleteFromNode_def, removeFromNode_def, ihc cid]

theorem mem_idsN (u : NodeItem) (j : Nat) :
    j ∈ idsN u ↔ ∃ m ∈ flattenNode u, m.id = j := by
  rw [idsN]
  constructor
  · intro h
    obtain ⟨m, hm, heq⟩ := List.mem_map.1 h
    exact ⟨m, hm, heq⟩
  · rintro ⟨m, hm, heq⟩
    exact heq ▸ List.mem_map_of_mem _ hm

theorem nodup_idsN_of_mem :
    ∀ ts : List NodeItem, (ids ts).Nodup → ∀ u ∈ flattenTree ts, (idsN u).Nodup := by
  refine forestInd ?_ ?_
  · intro _ u hu; simp at hu
  · intro n rest ihc iht hnd u hu
    obtain ⟨hndc, hndr, hninc, hdisj⟩ := nodup_cons_parts hnd
    simp only [flattenTree_cons, List.mem_append, flattenNode_def, List.mem_cons] at hu
    rcases hu with (rfl | hu) | hu
    · rw [idsN_def, List.nodup_cons]
      exact ⟨hninc, hndc⟩
    · exact ihc hndc u hu
    · exact iht hndr u hu

theorem markCut_id (n : NodeItem) : (markCutNodes n).id = n.id := by
  rw [markCutNodes_def]

theorem clearCut_id (n : NodeItem) : (clearCutFlags n).id = n.id := by
  rw [clearCutFlags_def]

theorem clearCut_isCut (n : NodeItem) : (clearCutFlags n).isCut = false := by
  rw [clearCutFlags_def]

/-- The pre-order of the `page.tsx` layout result corresponds to the pre-order
of the input via `stripLayout`. -/
theorem layout_strip_mem {ts : List NodeItem} {t : NodeItem} (s c : Nat)
    (ht : t ∈ flattenTree ts) :
    ∃ t2 ∈ flattenTree (recalculateLayout ts s c).1, stripLayout t2 = stripLayout t := by
  have h := flatten_strip_congr (recalc_strip ts s c)
  have h2 : stripLayout t ∈ (flattenTree ts).map stripLayout := List.mem_map_of_mem _ ht
  rw [← h] at h2
  obtain ⟨t2, ht2, heq⟩ := List.mem_map.1 h2
  exact ⟨t2, ht2, heq⟩

theorem layout_strip_mem_rev {ts : List NodeItem} {m2 : NodeItem} (s c : Nat)
    (hm2 : m2 ∈ flattenTree (recalculateLayout ts s c).1) :
    ∃ m ∈ flattenTree ts, stripLayout m2 = stripLayout m := by
  have h := flatten_strip_congr (recalc_strip ts s c)
  have h2 : stripLayout m2 ∈
      (flattenTree (recalculateLayout ts s c).1).map stripLayout :=
    List.mem_map_of_mem _ hm2
  rw [h] at h2
  obtain ⟨m, hm, heq⟩ := List.mem_map.1 h2
  exact ⟨m, hm, heq.symm⟩

theorem layout_ids (ts : List NodeItem) (s c : Nat) :
    ids ((recalculateLayout ts s c).1) = ids ts :=
  ids_congr_strip (recalc_strip ts s c)

theorem layout_flatten_len (ts : List NodeItem) (s c : Nat) :
    (flattenTree (recalculateLayout ts s c).1).length = (flattenTree ts).length := by
  have h := flatten_strip_congr (recalc_strip ts s c)
  have h2 := congrArg List.length h
  simpa using h2

theorem count_idsN_self {ts : List NodeItem} {u : NodeItem}
    (hnd : (ids ts).Nodup) (hu : u ∈ flattenTree ts) :
    (idsN u).count u.id = 1 := by
  have h := nodup_idsN_of_mem ts hnd u hu
  rw [idsN_def] at h ⊢
  rw [List.nodup_cons] at h
  rw [List.count_cons_self]
  rw [List.count_eq_zero.2 h.1]

/-! ### Claim theorems -/

/-- C4: for every forest and clipboard state, invoking cut, copy, or delete
with the root node (`id = 'root'`, modelled as `0`) as target leaves both the
forest and the clipboard unchanged.  Cut and copy guard in the handler;
delete is guarded by the menu item's `disabled` condition (`deleteOp`). -/
theorem C4_root_guards (nodes : List NodeItem) (clipboard : Option Clipboard)
    (n : NodeItem) (h : n.id = rootId) :
    handleCut nodes clipboard n = (nodes, clipboard) ∧
    handleCopy nodes clipboard n = (nodes, clipboard) ∧
    deleteOp nodes clipboard n = (nodes, clipboard) := by
  refine ⟨?_, ?_, ?_⟩
  · simp only [handleCut, if_pos h]
  · simp only [handleCopy, if_pos h]
  · have hfalse : menuDeleteEnabled n = false := by
      simp [menuDeleteEnabled, h]
    simp only [deleteOp, hfalse]
    simp

/-- Witness for C4 at the initial forest and the root node. -/
theorem C4_root_guards_witness :
    handleCut initialNodes none rootNode0 = (initialNodes, none) ∧
    handleCopy initialNodes none rootNode0 = (initialNodes, none) ∧
    deleteOp initialNodes none rootNode0 = (initialNodes, none) :=
  C4_root_guards initialNodes none rootNode0 rfl

/-- C5: invoking delete on a target node that currently has children is a
no-op (the menu item is disabled, so `deleteOp` leaves the forest and
clipboard unchanged); delete only removes when the target is a non-root leaf,
and then it removes exactly the nodes carrying the target's id. -/
theorem C5_delete_leaf_only (nodes : List NodeItem) (clipboard : Option Clipboard)
    (n : NodeItem) :
    (n.children ≠ [] → deleteOp nodes clipboard n = (nodes, clipboard)) ∧
    (n.id ≠ rootId → n.children = [] →
      deleteOp nodes clipboard n = (handleDelete nodes n, clipboard) ∧
      ∀ m ∈ flattenTree (handleDelete nodes n), m.id ≠ n.id) := by
  constructor
  · intro hne
    have hfalse : menuDeleteEnabled n = false := by
      simp only [menuDeleteEnabled]
      have : n.children.length > 0 := by
        rcases hch : n.children with _ | _
        · exact absurd hch hne
        · simp
      simp [this]
    simp only [deleteOp, hfalse]
    simp
  · intro hroot hleaf
    have htrue : menuDeleteEnabled n = true := by
      simp [menuDeleteEnabled, hroot, hleaf]
    constructor
    · simp only [deleteOp, htrue]
      simp
    · intro m hm
      simp only [handleDelete] at hm
      obtain ⟨m0, hm0, hstrip⟩ := layout_strip_mem_rev 0 0 hm
      rw [deleteFrom_eq_removeFrom] at hm0
      have hne := removeFrom_not_mem n.id nodes m0 hm0
      rw [strip_eq_id hstrip]
      exact hne

/-- Witness for C5: deleting a node with children is a no-op; deleting a
non-root leaf removes it. -/
theorem C5_delete_leaf_only_witness :
    (deleteOp session2.1 none rootNode1 = (session2.1, none)) ∧
    (deleteOp session2.1 none nodeA2 = (handleDelete session2.1 nodeA2, none) ∧
      ∀ m ∈ flattenTree (handleDelete session2.1 nodeA2), m.id ≠ nodeA2.id) := by
  constructor
  · exact (C5_delete_leaf_only session2.1 none rootNode1).1 (by decide)
  · exact (C5_delete_leaf_only session2.1 none nodeA2).2 (by decide) (by decide)

/-- C7: invoking paste with an empty clipboard, or with a target whose id
equals the clipboard node's id, leaves the forest, the clipboard and the
fresh-id counter unchanged. -/
theorem C7_paste_guard (nodes : List NodeItem) (clipboard : Option Clipboard)
    (n : NodeItem) (ctr : Nat) :
    (clipboard = none → handlePaste nodes clipboard n ctr = (nodes, none, ctr)) ∧
    (∀ cb : Clipboard, clipboard = some cb → n.id = cb.node.id →
      handlePaste nodes clipboard n ctr = (nodes, some cb, ctr)) := by
  constructor
  · intro h
    subst h
    rfl
  · intro cb h heq
    subst h
    simp only [handlePaste, if_pos heq]

/-- Witness for C7 at concrete states. -/
theorem C7_paste_guard_witness :
    handlePaste session2.1 none nodeA2 session2.2 = (session2.1, none, session2.2) ∧
    handlePaste session3.1 session3.2 nodeA2 session2.2 =
      (session3.1, session3.2, session2.2) := by
  constructor
  · exact (C7_paste_guard session2.1 none nodeA2 session2.2).1 rfl
  · have h := (C7_paste_guard session3.1 session3.2 nodeA2 session2.2).2
      ⟨Mode.cut, markCutNodes nodeA2⟩ (by decide) (by decide)
    rw [h]
    decide

/-- C2 counterexample: in the `page.tsx` `recalculateLayout`, the first child
of a node is laid out starting at the node's own row, so a descendant's row
is not strictly greater than its ancestor's: with a single root and one
child, both receive row 0 (in particular the first child added under the
root does not get row ≥ 1, and two nodes share row value 0). -/
theorem C2_row_counterexample :
    ∃ p ∈ flattenTree (recalculateLayout
      [⟨0, "root", [⟨1, "A", [], some 0, false, 0, 0⟩], none, false, 0, 0⟩] 0 0).1,
      ∃ d ∈ flattenTree p.children, ¬ p.row < d.row := by
  refine ⟨⟨0, "root", [⟨1, "A", [], some 0, false, 1, 0⟩], none, false, 0, 0⟩, ?_,
    ⟨1, "A", [], some 0, false, 1, 0⟩, ?_, ?_⟩ <;> decide

/-- C2 (amended): in the `page.tsx` layout, every descendant's row is at
least (not strictly greater than) its ancestor's row, and sibling subtrees
occupy disjoint, strictly ordered row ranges; in the `part_000` layout the
claim holds as stated: descendants' rows are strictly greater, sibling
subtrees are row-disjoint, and the pre-order rows are exactly
`startRow, startRow+1, …` — one node per row value, the counter increasing
by 1 per node visited. -/
theorem C2_row_layout (ts : List NodeItem) (s c : Nat) :
    (∀ p ∈ flattenTree (recalculateLayout ts s c).1, ∀ d ∈ flattenTree p.children,
      p.row ≤ d.row) ∧
    ((recalculateLayout ts s c).1.Pairwise RowLT ∧
      ∀ p ∈ flattenTree (recalculateLayout ts s c).1, p.children.Pairwise RowLT) ∧
    (∀ p ∈ flattenTree (recalculateLayoutP0 ts s c).1, ∀ d ∈ flattenTree p.children,
      p.row < d.row) ∧
    ((recalculateLayoutP0 ts s c).1.Pairwise RowLT ∧
      ∀ p ∈ flattenTree (recalculateLayoutP0 ts s c).1, p.children.Pairwise RowLT) ∧
    (flattenTree (recalculateLayoutP0 ts s c).1).map NodeItem.row =
      List.range' s (flattenTree ts).length :=
  ⟨recalc_parent_child ts s c, recalc_pairwise ts s c, recalcP0_parent_child ts s c,
    recalcP0_pairwise ts s c, (recalcP0_rows_eq ts s c).2⟩

/-- Witness for C2 at a concrete two-node forest: the page layout gives the
child the parent's row (0 ≤ 0), the part_000 layout gives it row 1 (0 < 1). -/
theorem C2_row_layout_witness :
    ((⟨0, "root", [⟨1, "A", [], some 0, false, 1, 0⟩], none, false, 0, 0⟩ : NodeItem).row ≤
      (⟨1, "A", [], some 0, false, 1, 0⟩ : NodeItem).row) ∧
    ((⟨0, "root", [⟨1, "A", [], some 0, false, 1, 1⟩], none, false, 0, 0⟩ : NodeItem).row <
      (⟨1, "A", [], some 0, false, 1, 1⟩ : NodeItem).row) := by
  constructor
  · exact (C2_row_layout
      [⟨0, "root", [⟨1, "A", [], some 0, false, 0, 0⟩], none, false, 0, 0⟩] 0 0).1
      ⟨0, "root", [⟨1, "A", [], some 0, false, 1, 0⟩], none, false, 0, 0⟩ (by decide)
      ⟨1, "A", [], some 0, false, 1, 0⟩ (by decide)
  · exact (C2_row_layout
      [⟨0, "root", [⟨1, "A", [], some 0, false, 0, 0⟩], none, false, 0, 0⟩] 0 0).2.2.1
      ⟨0, "root", [⟨1, "A", [], some 0, false, 1, 1⟩], none, false, 0, 0⟩ (by decide)
      ⟨1, "A", [], some 0, false, 1, 1⟩ (by decide)

/-- C9: cutting a non-root node `N` marks `isCut` on `N` and every descendant
where the subtree lives in the forest, sets the clipboard to the cut mode
holding (the marked copy of) `N`, and changes no node's id, label, layout or
children structure: the forest is unchanged up to `isCut` flags, so the
subtree stays attached at its original position. -/
theorem C9_cut_staging (nodes : List NodeItem) (clipboard : Option Clipboard)
    (N : NodeItem) (hnd : (ids nodes).Nodup) (hN : N ∈ flattenTree nodes)
    (hroot : N.id ≠ rootId) :
    (handleCut nodes clipboard N).2 = some ⟨Mode.cut, markCutNodes N⟩ ∧
    (markCutNodes N).id = N.id ∧
    markCutNodes N ∈ flattenTree (handleCut nodes clipboard N).1 ∧
    (∀ m ∈ flattenNode (markCutNodes N), m.isCut = true) ∧
    ((handleCut nodes clipboard N).1).map eraseCut = nodes.map eraseCut := by
  simp only [handleCut, if_neg hroot]
  have hid : (markCutNodes N).id = N.id := markCut_id N
  refine ⟨by trivial, hid, ?_, isCut_markCutNodes N, ?_⟩
  · rw [hid]
    exact replace_markCut_mem N nodes hnd hN
  · rw [hid]
    exact replace_markCut_eraseCut N nodes hnd hN

/-- Witness for C9: cutting node "A" of the concrete session. -/
theorem C9_cut_staging_witness :
    (handleCut session2.1 none nodeA2).2 = some ⟨Mode.cut, markCutNodes nodeA2⟩ ∧
    (markCutNodes nodeA2).id = nodeA2.id ∧
    markCutNodes nodeA2 ∈ flattenTree (handleCut session2.1 none nodeA2).1 ∧
    (∀ m ∈ flattenNode (markCutNodes nodeA2), m.isCut = true) ∧
    ((handleCut session2.1 none nodeA2).1).map eraseCut = session2.1.map eraseCut :=
  C9_cut_staging session2.1 none nodeA2 (by decide) (by decide) (by decide)

/-- C8: for any forest with unique ids below the fresh-id counter and a
target node in the forest, submitting a label that trims to the empty string
leaves the forest and counter unchanged; otherwise exactly one new leaf is
created — it carries the fresh id (distinct from every id in the forest),
the submitted label, no children and `parentId` equal to the target's id —
appended at the end of the target's children, and no other node's children
change (up to the recomputed layout). -/
theorem C8_addChild (nodes : List NodeItem) (T : NodeItem) (label : String)
    (ctr : Nat) (hnd : (ids nodes).Nodup) (hT : T ∈ flattenTree nodes)
    (hfresh : allIdsLt nodes ctr) :
    (trimLabel label = "" → handleModalSubmit nodes T label ctr = (nodes, ctr)) ∧
    (trimLabel label ≠ "" →
      (∃ T2 ∈ flattenTree (handleModalSubmit nodes T label ctr).1,
        T2.id = T.id ∧ childIds T2 = childIds T ++ [ctr]) ∧
      (∃ m ∈ flattenTree (handleModalSubmit nodes T label ctr).1,
        m.id = ctr ∧ m.label = label ∧ m.children = [] ∧ m.parentId = some T.id) ∧
      (∀ m0 ∈ flattenTree nodes, m0.id ≠ ctr) ∧
      (flattenTree (handleModalSubmit nodes T label ctr).1).length =
        (flattenTree nodes).length + 1 ∧
      (∀ m2 ∈ flattenTree (handleModalSubmit nodes T label ctr).1, m2.id ≠ T.id →
        m2.id = ctr ∨
        ∃ m0 ∈ flattenTree nodes, m0.id = m2.id ∧ childIds m2 = childIds m0)) := by
  have hTid : T.id ∈ ids nodes := (mem_ids nodes T.id).2 ⟨T, hT, rfl⟩
  have hmax : maxCount T.id nodes = 1 := nodup_maxCount_one hnd hTid
  constructor
  · intro h
    simp only [handleModalSubmit, if_pos h]
  · intro h
    simp only [handleModalSubmit, if_neg h]
    set x : NodeItem :=
      ⟨ctr, label, [], some T.id, false, 0, 0⟩ with hx
    have hU := updateTree_append_apply T.id x nodes hnd T hT rfl
    refine ⟨?_, ?_, ?_, ?_, ?_⟩
    · -- the target gains exactly the new child at the end
      obtain ⟨T2, hT2, hstrip⟩ := layout_strip_mem 0 0 hU
      refine ⟨T2, hT2, ?_, ?_⟩
      · rw [strip_eq_id hstrip]
      · rw [strip_eq_childIds hstrip]
        simp only [childIds, List.map_append]
        rfl
    · -- the new leaf itself
      have hxmem : x ∈ flattenTree (updateTree nodes T.id (appendChildFn x)) := by
        refine flattenNode_subset _ _ hU x ?_
        rw [flattenNode_def]
        refine List.mem_cons_of_mem _ ?_
        rw [flattenTree_append]
        refine List.mem_append_right _ ?_
        rw [flattenTree_cons, flattenNode_def]
        exact List.mem_append_left _ (List.mem_cons_self _ _)
      obtain ⟨m, hm, hstrip⟩ := layout_strip_mem 0 0 hxmem
      refine ⟨m, hm, ?_, ?_, ?_, ?_⟩
      · rw [strip_eq_id hstrip]
      · rw [strip_eq_label hstrip]
      · have h2 := strip_eq_children_map hstrip
        have h3 : x.children = [] := rfl
        rw [h3] at h2
        simpa using h2
      · rw [strip_eq_parentId hstrip]
    · -- freshness
      intro m0 hm0
      have := hfresh m0 hm0
      omega
    · -- exactly one new node
      rw [layout_flatten_len]
      rw [updateTree_len T.id x nodes hmax]
      rfl
    · -- no other node's children change
      intro m2 hm2 hne
      obtain ⟨m1, hm1, hstrip⟩ := layout_strip_mem_rev 0 0 hm2
      rcases updateTree_mem_char T.id x nodes m1 hm1 with ⟨hid, _⟩ | ⟨m0, hm0, heq⟩ | hin
      · rw [strip_eq_id hstrip] at hne
        exact absurd hid hne
      · right
        refine ⟨m0, hm0, ?_, ?_⟩
        · rw [strip_eq_id hstrip, heq.1]
        · rw [strip_eq_childIds hstrip, heq.2.2.2.2]
      · left
        have hx1 : flattenNode x = [x] := rfl
        rw [hx1, List.mem_singleton] at hin
        rw [strip_eq_id hstrip, hin]

/-- Witness for C8: submitting a whitespace label is a no-op, and adding "B"
under the root of the concrete session creates exactly the new leaf. -/
theorem C8_addChild_witness :
    (handleModalSubmit session1.1 rootNode1 " " session1.2 = (session1.1, session1.2)) ∧
    (∃ m ∈ flattenTree (handleModalSubmit session1.1 rootNode1 "B" session1.2).1,
      m.id = session1.2 ∧ m.label = "B" ∧ m.children = [] ∧
      m.parentId = some rootNode1.id) := by
  constructor
  · exact (C8_addChild session1.1 rootNode1 " " session1.2 (by decide) (by decide)
      (by decide)).1 (by decide)
  · exact ((C8_addChild session1.1 rootNode1 "B" session1.2 (by decide) (by decide)
      (by decide)).2 (by decide)).2.1

/-- One-step equation for `handlePaste` in cut mode past the guard. -/
theorem handlePaste_cut_eq (nodes : List NodeItem) (cnode T : NodeItem) (ctr : Nat)
    (hne : T.id ≠ cnode.id) :
    handlePaste nodes (some ⟨Mode.cut, cnode⟩) T ctr =
      ((recalculateLayout
        (updateTree (removeFrom cnode.id nodes) T.id
          (appendChildFn (clearCutFlags cnode))) 0 0).1, none, ctr) := by
  simp [handlePaste, hne]

/-- One-step equation for `handlePaste` in copy mode past the guard. -/
theorem handlePaste_copy_eq (nodes : List NodeItem) (cnode T : NodeItem) (ctr : Nat)
    (hne : T.id ≠ cnode.id) :
    handlePaste nodes (some ⟨Mode.copy, cnode⟩) T ctr =
      ((recalculateLayout
        (updateTree nodes T.id (appendChildFn (deepClone cnode ctr).1)) 0 0).1,
       none, (deepClone cnode ctr).2) := by
  simp [handlePaste, hne]

/-- C1: cutting a non-root node `N` and pasting under a target `T` that has
a different id and is not a descendant of `N` yields a forest in which the
node with `N`\'s id is the last child of the node with `T`\'s id, with
`isCut = false`; the id `N.id` occurs exactly once in the resulting forest
(so `N` is gone from its original location), and the clipboard is cleared. -/
theorem C1_cut_paste (F : List NodeItem) (clip0 : Option Clipboard) (N T : NodeItem)
    (ctr : Nat) (hnd : (ids F).Nodup) (hN : N ∈ flattenTree F) (hNr : N.id ≠ rootId)
    (hT : T ∈ flattenTree (handleCut F clip0 N).1) (hTN : T.id ≠ N.id)
    (hdesc : ∀ u ∈ flattenTree (handleCut F clip0 N).1, u.id = N.id →
      T ∉ flattenTree u.children) :
    (handlePaste (handleCut F clip0 N).1 (handleCut F clip0 N).2 T ctr).2.1 = none ∧
    (∃ T2 ∈ flattenTree
        (handlePaste (handleCut F clip0 N).1 (handleCut F clip0 N).2 T ctr).1,
      T2.id = T.id ∧ ∃ lc, T2.children.getLast? = some lc ∧
        lc.id = N.id ∧ lc.isCut = false) ∧
    (ids (handlePaste (handleCut F clip0 N).1 (handleCut F clip0 N).2 T ctr).1).count
      N.id = 1 := by
  have hcut1 : (handleCut F clip0 N).1 = replaceNodeInTree F N.id (markCutNodes N) := by
    simp only [handleCut, if_neg hNr, markCut_id]
  have hcut2 : (handleCut F clip0 N).2 = some ⟨Mode.cut, markCutNodes N⟩ := by
    simp only [handleCut, if_neg hNr]
  rw [hcut1] at hT hdesc
  rw [hcut1, hcut2]
  have hidsF1 : ids (replaceNodeInTree F N.id (markCutNodes N)) = ids F :=
    ids_congr_eraseCut (replace_markCut_eraseCut N F hnd hN)
  have hndF1 : (ids (replaceNodeInTree F N.id (markCutNodes N))).Nodup := by
    rw [hidsF1]; exact hnd
  have hTN2 : T.id ≠ (markCutNodes N).id := by rw [markCut_id]; exact hTN
  rw [handlePaste_cut_eq _ _ _ _ hTN2, markCut_id]
  obtain ⟨t2, ht2, ht2id⟩ :=
    removeFrom_keep N.id (replaceNodeInTree F N.id (markCutNodes N)) T hT hTN hdesc
  have hndR : (ids (removeFrom N.id (replaceNodeInTree F N.id (markCutNodes N)))).Nodup :=
    List.Nodup.sublist (removeFrom_ids_sublist N.id _) hndF1
  have happly := updateTree_append_apply T.id (clearCutFlags (markCutNodes N)) _
    hndR t2 ht2 ht2id
  have hxid : (clearCutFlags (markCutNodes N)).id = N.id := by
    rw [clearCut_id, markCut_id]
  refine ⟨rfl, ?_, ?_⟩
  · obtain ⟨T2, hT2mem, hT2strip⟩ := layout_strip_mem 0 0 happly
    refine ⟨T2, hT2mem, (strip_eq_id hT2strip).trans ht2id, ?_⟩
    have h2 := strip_eq_children_map hT2strip
    have h3 : (T2.children.map stripLayout).getLast? =
        some (stripLayout (clearCutFlags (markCutNodes N))) := by
      rw [h2]
      have : ({ t2 with children := t2.children ++ [clearCutFlags (markCutNodes N)] } :
          NodeItem).children = t2.children ++ [clearCutFlags (markCutNodes N)] := rfl
      rw [this, List.map_append]
      simp
    rw [List.getLast?_map] at h3
    obtain ⟨lc, hlc, heq⟩ := Option.map_eq_some'.1 h3
    refine ⟨lc, hlc, ?_, ?_⟩
    · exact (strip_eq_id heq).trans hxid
    · rw [strip_eq_isCut heq, clearCut_isCut]
  · rw [layout_ids]
    have hmaxT : maxCount T.id
        (removeFrom N.id (replaceNodeInTree F N.id (markCutNodes N))) = 1 :=
      nodup_maxCount_one hndR ((mem_ids _ _).2 ⟨t2, ht2, ht2id⟩)
    rw [updateTree_count T.id _ _ hmaxT N.id]
    have hz : (ids (removeFrom N.id (replaceNodeInTree F N.id (markCutNodes N)))).count
        N.id = 0 := by
      rw [List.count_eq_zero]
      intro hmem
      obtain ⟨m, hm, hmid⟩ := (mem_ids _ _).1 hmem
      exact removeFrom_not_mem N.id _ m hm hmid
    have hone : (idsN (clearCutFlags (markCutNodes N))).count N.id = 1 := by
      rw [idsN_clearCut, idsN_markCut]
      exact count_idsN_self hnd hN
    rw [hz, hone]

/-- Witness for C1: in the concrete session, cut "A" (id 1) and paste it
under "B" (id 2): id 1 ends up exactly once, as the last child of "B",
unmarked, and the clipboard is cleared. -/
theorem C1_cut_paste_witness :
    (handlePaste (handleCut session2.1 none nodeA2).1 (handleCut session2.1 none nodeA2).2
      nodeB3 session2.2).2.1 = none ∧
    (∃ T2 ∈ flattenTree (handlePaste (handleCut session2.1 none nodeA2).1
        (handleCut session2.1 none nodeA2).2 nodeB3 session2.2).1,
      T2.id = nodeB3.id ∧ ∃ lc, T2.children.getLast? = some lc ∧
        lc.id = nodeA2.id ∧ lc.isCut = false) ∧
    (ids (handlePaste (handleCut session2.1 none nodeA2).1
        (handleCut session2.1 none nodeA2).2 nodeB3 session2.2).1).count nodeA2.id = 1 :=
  C1_cut_paste session2.1 none nodeA2 nodeB3 session2.2 (by decide) (by decide)
    (by decide) (by decide) (by decide) (by decide)

/-- C6 counterexample: the claim asserts that the original subtree of `N` is
unchanged after copy-paste whenever `T.id ≠ N.id`, but pasting into a strict
descendant of `N` (allowed by the guard) inserts the clone inside `N`\'s
subtree: in the chain root → A → B, after copying "A" and pasting into "B",
no node of the resulting forest has (layout-erased) subtree equal to the
original subtree of "A". -/
theorem C6_copy_paste_counterexample :
    ¬ ∃ m ∈ flattenTree c6paste.1, stripLayout m = stripLayout c6A := by
  decide

/-- C6 (amended): after copy(N) (non-root) and paste(T) with `T.id ≠ N.id`,
the forest gains, as the last child of the node with `T`\'s id, a subtree
isomorphic in shape and labels to `N`\'s subtree whose node ids are all fresh
(distinct from every id already in the forest) and whose `isCut` flags are
all false, and the clipboard is cleared; provided `T` is not a descendant of
`N`, the original subtree of `N` is unchanged (up to the recomputed layout)
and still in place. -/
theorem C6_copy_paste (F : List NodeItem) (clip0 : Option Clipboard) (N T : NodeItem)
    (ctr : Nat) (hnd : (ids F).Nodup) (hN : N ∈ flattenTree F) (hNr : N.id ≠ rootId)
    (hT : T ∈ flattenTree F) (hTN : T.id ≠ N.id) (hfresh : allIdsLt F ctr) :
    handleCopy F clip0 N = (F, some ⟨Mode.copy, N⟩) ∧
    (handlePaste F (some ⟨Mode.copy, N⟩) T ctr).2.1 = none ∧
    (∃ T2 ∈ flattenTree (handlePaste F (some ⟨Mode.copy, N⟩) T ctr).1,
      T2.id = T.id ∧ ∃ lc, T2.children.getLast? = some lc ∧
        skel lc = skel N ∧
        (∀ k ∈ flattenNode lc, k.isCut = false) ∧
        (∀ j ∈ idsN lc, ∀ m0 ∈ flattenTree F, m0.id ≠ j)) ∧
    (T.id ∉ idsN N →
      ∃ N2 ∈ flattenTree (handlePaste F (some ⟨Mode.copy, N⟩) T ctr).1,
        stripLayout N2 = stripLayout N) := by
  have hcopy : handleCopy F clip0 N = (F, some ⟨Mode.copy, N⟩) := by
    simp only [handleCopy, if_neg hNr]
  rw [handlePaste_copy_eq _ _ _ _ hTN]
  have happly := updateTree_append_apply T.id (deepClone N ctr).1 F hnd T hT rfl
  refine ⟨hcopy, rfl, ?_, ?_⟩
  · obtain ⟨T2, hT2mem, hT2strip⟩ := layout_strip_mem 0 0 happly
    refine ⟨T2, hT2mem, ?_, ?_⟩
    · have hid := strip_eq_id hT2strip
      exact hid
    have h2 := strip_eq_children_map hT2strip
    have h3 : (T2.children.map stripLayout).getLast? =
        some (stripLayout (deepClone N ctr).1) := by
      rw [h2]
      have h4 : ({ T with children := T.children ++ [(deepClone N ctr).1] } :
          NodeItem).children = T.children ++ [(deepClone N ctr).1] := rfl
      rw [h4, List.map_append]
      simp
    rw [List.getLast?_map] at h3
    obtain ⟨lc, hlc, heq⟩ := Option.map_eq_some'.1 h3
    refine ⟨lc, hlc, ?_, ?_, ?_⟩
    · exact (strip_eq_skel heq).trans (deepClone_skel N ctr)
    · intro k hk
      obtain ⟨k2, hk2, hkeq⟩ := strip_eq_mem heq k hk
      rw [strip_eq_isCut hkeq]
      exact deepClone_isCut N ctr k2 hk2
    · intro j hj m0 hm0
      rw [strip_eq_idsN heq] at hj
      obtain ⟨m, hm, hmid⟩ := (mem_idsN _ _).1 hj
      have hge := ((deepClone_ids N ctr).2 m hm).1
      have hlt := hfresh m0 hm0
      omega
  · intro hnot
    have hpres := updateTree_preserve T.id (deepClone N ctr).1 F N hN hnot
    exact layout_strip_mem 0 0 hpres

/-- Witness for C6 (amended): copying "A" of the session and pasting it under
"B" (a sibling, not a descendant) leaves the original in place and appends a
fresh isomorphic copy. -/
theorem C6_copy_paste_witness :
    handleCopy session2.1 none nodeA2 = (session2.1, some ⟨Mode.copy, nodeA2⟩) ∧
    (handlePaste session2.1 (some ⟨Mode.copy, nodeA2⟩) nodeB3 session2.2).2.1 = none ∧
    (∃ N2 ∈ flattenTree
        (handlePaste session2.1 (some ⟨Mode.copy, nodeA2⟩) nodeB3 session2.2).1,
      stripLayout N2 = stripLayout nodeA2) := by
  have h := C6_copy_paste session2.1 none nodeA2 nodeB3 session2.2 (by decide)
    (by decide) (by decide) (by decide) (by decide) (by decide)
  exact ⟨h.1, h.2.1, h.2.2.2 (by decide)⟩

/-- C10: the self-paste guard only compares ids, so pasting a cut node `N`
into a strict descendant `T` of `N` is permitted; the removal step then
deletes `N`\'s entire subtree (including `T`), the insertion finds no target,
and the result is just the re-laid-out forest with `N`\'s subtree gone: `N`,
`T` and all ids occurring only inside `N`\'s subtree vanish, while the
clipboard is still cleared. -/
theorem C10_paste_into_descendant (F : List NodeItem) (N T : NodeItem) (ctr : Nat)
    (hnd : (ids F).Nodup) (hTN : T.id ≠ N.id) (hTmem : T.id ∈ ids F)
    (hout : occursOutside N.id T.id F = false) :
    handlePaste F (some ⟨Mode.cut, N⟩) T ctr =
      ((recalculateLayout (removeFrom N.id F) 0 0).1, none, ctr) ∧
    (∀ m ∈ flattenTree (handlePaste F (some ⟨Mode.cut, N⟩) T ctr).1,
      m.id ≠ N.id ∧ m.id ≠ T.id) ∧
    (∀ u ∈ flattenTree F, u.id = N.id →
      ∀ j ∈ idsN u, j ∉ ids (handlePaste F (some ⟨Mode.cut, N⟩) T ctr).1) := by
  have hTnot : T.id ∉ ids (removeFrom N.id F) := by
    intro hmem
    have h := (mem_ids_removeFrom N.id T.id F).1 hmem
    rw [hout] at h
    exact Bool.false_ne_true h
  have hmax0 : maxCount T.id (removeFrom N.id F) = 0 := by
    by_contra h
    have h1 : 1 ≤ maxCount T.id (removeFrom N.id F) := by omega
    exact hTnot (maxCount_pos_mem _ _ h1)
  have heq : handlePaste F (some ⟨Mode.cut, N⟩) T ctr =
      ((recalculateLayout (removeFrom N.id F) 0 0).1, none, ctr) := by
    rw [handlePaste_cut_eq _ _ _ _ hTN, updateTree_maxCount_zero _ _ _ hmax0]
  refine ⟨heq, ?_, ?_⟩
  · intro m hm
    rw [heq] at hm
    obtain ⟨m0, hm0, hstrip⟩ := layout_strip_mem_rev 0 0 hm
    constructor
    · rw [strip_eq_id hstrip]
      exact removeFrom_not_mem N.id F m0 hm0
    · rw [strip_eq_id hstrip]
      intro hbad
      exact hTnot (hbad ▸ (mem_ids _ _).2 ⟨m0, hm0, rfl⟩)
  · intro u hu huid j hj
    rw [heq]
    have hocc : occursOutside u.id j F = false :=
      occursOutside_false_of_inside F hnd u hu j hj
    rw [huid] at hocc
    rw [layout_ids]
    intro hmem
    have h := (mem_ids_removeFrom N.id j F).1 hmem
    rw [hocc] at h
    exact Bool.false_ne_true h

/-- Witness for C10: in the chain root → A → B, cut "A" and paste into its
descendant "B": the whole subtree of "A" silently disappears. -/
theorem C10_paste_into_descendant_witness :
    handlePaste c10F (some ⟨Mode.cut, markCutNodes c6A⟩) c10B 3 =
      ((recalculateLayout (removeFrom (markCutNodes c6A).id c10F) 0 0).1, none, 3) :=
  (C10_paste_into_descendant c10F (markCutNodes c6A) c10B 3 (by decide) (by decide)
    (by decide) (by decide)).1

/-- C3: the parentId consistency invariant fails on a reachable forest.  In
the concrete session — add "A" and "B" under the root, cut "A", paste it into
"B" — every context node used is the node as rendered from the previous
state, the invariant holds initially, and the final forest contains the node
with id 1 as a structural child of the node with id 2 while its `parentId`
still names the root: `handlePaste` attaches the clipboard subtree without
updating its `parentId`. -/
theorem C3_parentId_bug :
    rootNode0 ∈ flattenTree initialNodes ∧
    rootNode1 ∈ flattenTree session1.1 ∧
    nodeA2 ∈ flattenTree session2.1 ∧
    nodeB3 ∈ flattenTree session3.1 ∧
    parentIdConsistent initialNodes = true ∧
    parentIdConsistent session4.1 = false := by
  refine ⟨?_, ?_, ?_, ?_, ?_, ?_⟩ <;> decide

end Hamiket
